import Mathlib

/-!
# Verification of `mixed_product.hpp` (cppitertools)

Shallow embedding of `iter::impl::MixedProductor` from `src/mixed_product.hpp`.

The C++ class is a recursive chain of nodes, one per input container, closed
by a terminal node that owns the shared running total (`total_fakesize_`) and
the global step counter.  We embed the chain as a `List` of per-node records
(`MPNode`), and the terminal node's two counters as the `total` and `gcounter`
fields of `MPState`.  Raw container iterators become indices into the
container's element list (`pos`), with `begin` at `0` and `end` at
`seq.length`; two raw iterators into the same container compare equal iff
their indices agree.

Nondependent C++ loops without a structural bound (the coprime search in
`set_size`, the skip loop in `operator++`, the driving `begin()`..`end()`
traversal) are embedded with explicit fuel; lemmas below show the fuel used
is sufficient, so the fueled functions agree with the C++ loops on all the
states the claims are about.
-/

namespace MixedProduct

/-- One node of the `MixedProductor` chain: the owner's fields
(`container` as `seq`, `size_`, `fakesize_`) together with the fields of the
node's slice of the composite `Iterator` (`iter` as `pos`, `begin` as
`beginPos`, `counter`).  The `end` iterator is `seq.length`. -/
structure MPNode (α : Type) where
  seq : List α
  size_ : Nat
  fakesize_ : Nat
  pos : Nat
  beginPos : Nat
  counter : Nat
deriving Repr, DecidableEq

/-- The full state: the node chain plus the terminal
`MixedProductor<>`'s `total_fakesize_` (`total`) and its iterator's
counter (`gcounter`). -/
structure MPState (α : Type) where
  nodes : List (MPNode α)
  total : Nat
  gcounter : Nat
deriving Repr, DecidableEq

/-- The recursion of `MixedProductor::gcd` with an explicit fuel.  The C++
recursion descends on `b`, which strictly decreases, so fuel `b + 1` always
suffices; `gcd_rec` below recovers the literal recursion. -/
def gcdF : Nat → Nat → Nat → Nat
  | 0, a, _ => a
  | fuel + 1, a, b => if b = 0 then a else gcdF fuel b (a % b)

/-- `MixedProductor::gcd`: `return (!b ? a : gcd(b, a%b));` -/
def gcd (a b : Nat) : Nat := gcdF (b + 1) a b

theorem gcdF_fuel_irrel (b : Nat) :
    ∀ (f1 f2 a : Nat), b < f1 → b < f2 → gcdF f1 a b = gcdF f2 a b := by
  induction b using Nat.strong_induction_on with
  | _ b ih =>
    intro f1 f2 a h1 h2
    cases f1 with
    | zero => omega
    | succ g1 =>
      cases f2 with
      | zero => omega
      | succ g2 =>
        rw [gcdF, gcdF]
        by_cases hb : b = 0
        · simp [hb]
        · rw [if_neg hb, if_neg hb]
          exact ih (a % b) (Nat.mod_lt _ (Nat.pos_of_ne_zero hb)) g1 g2 b
            (by have := Nat.mod_lt a (Nat.pos_of_ne_zero hb); omega)
            (by have := Nat.mod_lt a (Nat.pos_of_ne_zero hb); omega)

/-- `gcd` satisfies exactly the source's recursion
`gcd(a, b) = !b ? a : gcd(b, a % b)`. -/
theorem gcd_rec (a b : Nat) : gcd a b = if b = 0 then a else gcd b (a % b) := by
  show gcdF (b + 1) a b = _
  cases b with
  | zero => rfl
  | succ k =>
    rw [gcdF, if_neg (by omega), if_neg (by omega)]
    show _ = gcdF (a % (k + 1) + 1) (k + 1) (a % (k + 1))
    exact gcdF_fuel_irrel (a % (k + 1)) (k + 1) (a % (k + 1) + 1) (k + 1)
      (Nat.mod_lt _ (by omega)) (by omega)

/-- The `while (gcd(fakesize_, total) != 1) ++fakesize_;` loop of
`set_size`, with explicit fuel.  `coprimeFrom_minimal` below shows that
fuel `tot` always suffices when `tot ≠ 0`, which is the only situation in
which the C++ loop runs. -/
def coprimeFrom (tot : Nat) : Nat → Nat → Nat
  | f, 0 => f
  | f, fuel + 1 => if gcd f tot = 1 then f else coprimeFrom tot (f + 1) fuel

/-- `MixedProductor::set_size`.  The C++ member function mutates the owner's
`size_`/`fakesize_` and the terminal's `total_fakesize_`; we return the
updated node together with the updated running total. -/
def set_size {α : Type} (n : MPNode α) (tot sz : Nat) : MPNode α × Nat :=
  if sz = 0 then (n, tot)
  else if tot ≠ 0 then
    let f := coprimeFrom tot sz tot
    ({ n with size_ := sz, fakesize_ := f }, f * tot)
  else
    ({ n with size_ := sz, fakesize_ := sz }, sz)

/-- `Iterator::is_fake`:
`if (counter < owner->size_ || owner->fakesize_ == 0) return false;
 return counter < owner->fakesize_ ? true : false;` -/
def is_fake {α : Type} (n : MPNode α) : Bool :=
  if n.counter < n.size_ ∨ n.fakesize_ = 0 then false
  else decide (n.counter < n.fakesize_)

/-- `Iterator::do_increment` for the whole chain.  The two threaded `Nat`s
are the running total (read and written through `owner->set_size` /
`total_fakesize`) and the terminal iterator's counter, which the terminal
`do_increment` bumps (`++counter; return false;`).  Each non-terminal frame
forwards exactly one `do_increment` to its rest iterator on every path. -/
def do_increment {α : Type} :
    List (MPNode α) → Nat → Nat → List (MPNode α) × Nat × Nat × Bool
  | [], tot, g => ([], tot, g + 1, false)
  | n :: rest, tot, g =>
    -- if (!this->is_fake()) ++this->iter;  ++this->counter;
    let n1 := if is_fake n then n else { n with pos := n.pos + 1 }
    let n2 := { n1 with counter := n1.counter + 1 }
    if n2.pos = n2.seq.length then
      -- if (this->counter > 0 && this->owner->fakesize_ == 0) set_size(counter)
      let d := if 0 < n2.counter ∧ n2.fakesize_ = 0 then
                 set_size n2 tot n2.counter else (n2, tot)
      if is_fake d.1 then
        -- keep iter at end; advance rest; report fake
        let r := do_increment rest d.2 g
        (d.1 :: r.1, r.2.1, r.2.2.1, true)
      else
        -- this->iter = this->begin; this->counter = 0; return rest.do_increment()
        let r := do_increment rest d.2 g
        ({ d.1 with pos := d.1.beginPos, counter := 0 } :: r.1, r.2.1, r.2.2.1, r.2.2.2)
    else
      let r := do_increment rest tot g
      (n2 :: r.1, r.2.1, r.2.2.1, r.2.2.2)

/-- One whole-chain `do_increment` call on a state. -/
def stepState {α : Type} (s : MPState α) : MPState α × Bool :=
  let r := do_increment s.nodes s.total s.gcounter
  (⟨r.1, r.2.1, r.2.2.1⟩, r.2.2.2)

/-- `Iterator::all_sizes_discovered` (terminal case returns `true`). -/
def all_sizes_discovered {α : Type} (ns : List (MPNode α)) : Bool :=
  ns.all fun n => decide (n.fakesize_ ≠ 0)

/-- The cursor produced by `MixedProductor::end()`: every raw iterator (and
its cached `begin`) is the container's `end`, every counter is `0`. -/
def assignEnd {α : Type} (s : MPState α) : MPState α :=
  ⟨s.nodes.map fun n =>
      { n with pos := n.seq.length, beginPos := n.seq.length, counter := 0 },
   s.total, 0⟩

/-- `Iterator::operator++`:
`do { is_fake = do_increment();
      if (all_sizes_discovered() && global_counter() == total_fakesize())
      { *this = owner->end(); break; } } while (is_fake);`
with explicit fuel bounding the number of loop iterations. -/
def opInc {α : Type} : Nat → MPState α → Option (MPState α)
  | 0, _ => none
  | fuel + 1, s =>
    let r := stepState s
    if all_sizes_discovered r.1.nodes = true ∧ r.1.gcounter = r.1.total then
      some (assignEnd r.1)
    else if r.2 then opInc fuel r.1
    else some r.1

/-- `Iterator::operator!=`:
`return this->iter != other.iter
        && (RestIter::is_base_iter || this->rest_iter != other.rest_iter);`
The terminal (`is_base_iter`) `operator!=` returns `false`. -/
def cursorNe {α : Type} : List (MPNode α) → List (MPNode α) → Bool
  | [], [] => false
  | a :: as, b :: bs => decide (a.pos ≠ b.pos) && (as.isEmpty || cursorNe as bs)
  | _, _ => true

/-- The node chain of the cursor `MixedProductor::end()` returns. -/
def endNodesOf {α : Type} (ns : List (MPNode α)) : List (MPNode α) :=
  ns.map fun n =>
    { n with pos := n.seq.length, beginPos := n.seq.length, counter := 0 }

/-- `Iterator::operator*`: one element per node, outer to inner
(`tuple_cat` of the per-node dereferences).  Out-of-range dereference
(which is UB in C++) is `none`. -/
def deref {α : Type} (s : MPState α) : List (Option α) :=
  s.nodes.map fun n => n.seq[n.pos]?

/-- The state built by `mixed_product(...)` + `begin()`: every raw cursor at
its container's `begin`, all counters and the running total zero. -/
def beginState {α : Type} (seqs : List (List α)) : MPState α :=
  ⟨seqs.map fun l => ⟨l, 0, 0, 0, 0, 0⟩, 0, 0⟩

/-- The driving loop `for (it = begin(); it != end(); ++it) out.push(*it);`
with explicit fuel (shared between the outer loop and each `operator++`). -/
def collect {α : Type} : Nat → MPState α → List (List (Option α))
  | 0, _ => []
  | fuel + 1, s =>
    if cursorNe s.nodes (endNodesOf s.nodes) = true then
      deref s ::
        (match opInc fuel s with
         | some s2 => collect fuel s2
         | none => [])
    else []

/-- The state after `t` raw `do_increment` steps from `begin()`. -/
def reach {α : Type} (seqs : List (List α)) : Nat → MPState α
  | 0 => beginState seqs
  | t + 1 => (stepState (reach seqs t)).1

/-! ## The source's `gcd` is the Euclidean gcd -/

theorem gcd_eq_gcd (a b : Nat) : gcd a b = Nat.gcd a b := by
  induction b using Nat.strong_induction_on generalizing a with
  | _ b ih =>
    rw [gcd_rec]
    split
    · rename_i h
      subst h
      exact (Nat.gcd_zero_right a).symm
    · rename_i h
      rw [ih (a % b) (Nat.mod_lt _ (Nat.pos_of_ne_zero h)) b]
      rw [Nat.gcd_comm b (a % b), Nat.gcd_comm a b, Nat.gcd_rec b a]

theorem gcd_zero_right_eq (a : Nat) : gcd a 0 = a := rfl

/-! ## The coprime search loop -/

theorem coprimeFrom_spec (tot : Nat) :
    ∀ fuel f, (∃ g, f ≤ g ∧ g < f + fuel ∧ Nat.gcd g tot = 1) →
      f ≤ coprimeFrom tot f fuel ∧ Nat.gcd (coprimeFrom tot f fuel) tot = 1 ∧
        ∀ g, f ≤ g → g < coprimeFrom tot f fuel → Nat.gcd g tot ≠ 1 := by
  intro fuel
  induction fuel with
  | zero =>
    intro f hex
    obtain ⟨g, h1, h2, _⟩ := hex
    omega
  | succ fuel ih =>
    intro f hex
    obtain ⟨g, h1, h2, h3⟩ := hex
    rw [coprimeFrom]
    by_cases hf : gcd f tot = 1
    · simp only [hf, if_true]
      refine ⟨Nat.le_refl f, by rwa [gcd_eq_gcd] at hf, ?_⟩
      intro g2 hg2 hg2x
      omega
    · simp only [hf, if_false]
      have hfg : f ≠ g := by
        intro h
        subst h
        rw [gcd_eq_gcd] at hf
        exact hf h3
      have hrec := ih (f + 1) ⟨g, by omega, by omega, h3⟩
      refine ⟨by omega, hrec.2.1, ?_⟩
      intro g2 hg2 hg2x
      by_cases hg2f : g2 = f
      · subst hg2f
        rw [← gcd_eq_gcd]
        exact hf
      · exact hrec.2.2 g2 (by omega) hg2x

theorem exists_coprime_in_window (tot f : Nat) (h : 0 < tot) :
    ∃ g, f ≤ g ∧ g < f + tot ∧ Nat.gcd g tot = 1 := by
  rcases Nat.lt_or_ge tot 2 with h1 | h1
  · have : tot = 1 := by omega
    subst this
    exact ⟨f, Nat.le_refl f, by omega, Nat.gcd_one_right f⟩
  · refine ⟨f + (1 + tot - f % tot) % tot, by omega, ?_, ?_⟩
    · have := Nat.mod_lt (1 + tot - f % tot) (show 0 < tot by omega)
      omega
    · have hm : (f + (1 + tot - f % tot) % tot) % tot = 1 := by
        have hr : f % tot < tot := Nat.mod_lt _ (by omega)
        have e1 : f + (1 + tot - f % tot) % tot ≡
            f % tot + (1 + tot - f % tot) [MOD tot] :=
          Nat.ModEq.add (Nat.mod_modEq f tot).symm (Nat.mod_modEq _ tot)
        have e2 : f % tot + (1 + tot - f % tot) = 1 + tot := by omega
        have e3 : f + (1 + tot - f % tot) % tot ≡ 1 + tot [MOD tot] :=
          e1.trans (by rw [e2])
        have e4 : (f + (1 + tot - f % tot) % tot) % tot = (1 + tot) % tot := e3
        rw [e4, Nat.add_comm 1 tot, Nat.add_mod_left]
        exact Nat.mod_eq_of_lt (by omega)
      rw [Nat.gcd_comm, Nat.gcd_rec, hm, Nat.gcd_one_left]

/-- The padded length `set_size` computes from a running total and a true
length (`fakesize_` after the call). -/
def padOf (tot L : Nat) : Nat :=
  if tot = 0 then L else coprimeFrom tot L tot

theorem padOf_zero (L : Nat) : padOf 0 L = L := rfl

theorem padOf_pos_spec (tot L : Nat) (htot : 0 < tot) :
    L ≤ padOf tot L ∧ Nat.gcd (padOf tot L) tot = 1 ∧
      ∀ g, L ≤ g → g < padOf tot L → Nat.gcd g tot ≠ 1 := by
  have hne : tot ≠ 0 := by omega
  unfold padOf
  rw [if_neg hne]
  exact coprimeFrom_spec tot tot L (exists_coprime_in_window tot L htot)

theorem le_padOf (tot L : Nat) : L ≤ padOf tot L := by
  rcases Nat.eq_zero_or_pos tot with h | h
  · subst h
    exact Nat.le_refl L
  · exact (padOf_pos_spec tot L h).1

theorem set_size_eq {α : Type} (n : MPNode α) (tot sz : Nat) (h : sz ≠ 0) :
    set_size n tot sz =
      ({ n with size_ := sz, fakesize_ := padOf tot sz },
       if tot = 0 then sz else padOf tot sz * tot) := by
  rcases Nat.eq_zero_or_pos tot with h0 | h0
  · subst h0
    simp [set_size, padOf, h]
  · have : tot ≠ 0 := by omega
    simp [set_size, padOf, h, this]

theorem set_size_zero {α : Type} (n : MPNode α) (tot : Nat) :
    set_size n tot 0 = (n, tot) := by
  simp [set_size]

/-! ## `is_fake` -/

theorem is_fake_iff {α : Type} (n : MPNode α) :
    is_fake n = true ↔
      n.fakesize_ ≠ 0 ∧ n.size_ ≤ n.counter ∧ n.counter < n.fakesize_ := by
  unfold is_fake
  split
  · rename_i h
    simp only [Bool.false_eq_true, false_iff]
    intro hc
    rcases h with h | h
    · omega
    · exact hc.1 h
  · rename_i h
    push_neg at h
    simp only [decide_eq_true_eq]
    exact ⟨fun hc => ⟨h.2, h.1, hc⟩, fun hc => hc.2.2⟩

theorem is_fake_eq_false_iff {α : Type} (n : MPNode α) :
    is_fake n = false ↔
      ¬(n.fakesize_ ≠ 0 ∧ n.size_ ≤ n.counter ∧ n.counter < n.fakesize_) := by
  rw [← is_fake_iff]
  cases is_fake n <;> simp

/-! ## Cursor equality -/

theorem cursorNe_nil {α : Type} : cursorNe ([] : List (MPNode α)) [] = false := rfl

/-- For nonempty chains of equal arity, `operator!=` holds iff every node's
raw cursor differs from its counterpart. -/
theorem cursorNe_iff {α : Type} :
    ∀ as bs : List (MPNode α), as.length = bs.length → as ≠ [] →
      (cursorNe as bs = true ↔
        ∀ i (h1 : i < as.length) (h2 : i < bs.length), (as[i]).pos ≠ (bs[i]).pos)
  | [], _, _, hne => absurd rfl hne
  | [a], [], hlen, _ => by simp at hlen
  | [a], b :: b2 :: bs, hlen, _ => by simp at hlen
  | [a], [b], _, _ => by
    have hred : cursorNe [a] [b] = decide (a.pos ≠ b.pos) := by
      simp [cursorNe]
    rw [hred]
    simp only [decide_eq_true_eq]
    constructor
    · intro h i h1 h2
      cases i with
      | zero => simpa using h
      | succ j => simp at h1
    · intro h
      simpa using h 0 (by simp) (by simp)
  | a :: a2 :: as2, [], hlen, _ => by simp at hlen
  | a :: a2 :: as2, b :: bs, hlen, _ => by
    have hlen2 : (a2 :: as2).length = bs.length := by simpa using hlen
    have hbs : bs ≠ [] := by
      intro h
      subst h
      simp at hlen2
    have hred : cursorNe (a :: a2 :: as2) (b :: bs) =
        (decide (a.pos ≠ b.pos) && cursorNe (a2 :: as2) bs) := by
      simp [cursorNe]
    rw [hred]
    simp only [Bool.and_eq_true, decide_eq_true_eq]
    rw [cursorNe_iff (a2 :: as2) bs hlen2 (by simp)]
    constructor
    · rintro ⟨hh, ht⟩ i h1 h2
      cases i with
      | zero => simpa using hh
      | succ j =>
        have := ht j (by simpa using h1) (by simpa using h2)
        simpa using this
    · intro h
      refine ⟨by simpa using h 0 (by simp) (by simp), ?_⟩
      intro j h1 h2
      have := h (j + 1) (by simpa using h1) (by simpa using h2)
      simpa using this

theorem cursorNe_eq_false_iff {α : Type} (as bs : List (MPNode α))
    (hlen : as.length = bs.length) (hne : as ≠ []) :
    cursorNe as bs = false ↔
      ¬ ∀ i (h1 : i < as.length) (h2 : i < bs.length), (as[i]).pos ≠ (bs[i]).pos := by
  rw [← cursorNe_iff as bs hlen hne]
  cases cursorNe as bs <;> simp

/-! ## The terminal counter (`global_counter`) -/

/-- Every branch of every non-terminal `do_increment` frame forwards exactly
one `do_increment` to its rest iterator, so one whole-chain call bumps the
terminal counter by exactly one. -/
theorem do_increment_gcounter {α : Type} (ns : List (MPNode α)) :
    ∀ (tot g : Nat), (do_increment ns tot g).2.2.1 = g + 1 := by
  induction ns with
  | nil => intro tot g; rfl
  | cons n rest ih =>
    intro tot g
    rw [do_increment]
    repeat' split
    any_goals simp [ih]
    all_goals (repeat' split)
    all_goals simp [ih]

theorem stepState_gcounter {α : Type} (s : MPState α) :
    (stepState s).1.gcounter = s.gcounter + 1 := by
  unfold stepState
  simpa using do_increment_gcounter s.nodes s.total s.gcounter

theorem reach_gcounter {α : Type} (seqs : List (List α)) :
    ∀ t, (reach seqs t).gcounter = t
  | 0 => rfl
  | t + 1 => by
    rw [reach, stepState_gcounter, reach_gcounter seqs t]

/-! ## Modular-arithmetic helpers -/

theorem mod_succ_lt (t p : Nat) (h : t % p + 1 < p) : (t + 1) % p = t % p + 1 := by
  have hp2 : 2 ≤ p := by omega
  rw [Nat.add_mod t 1 p, Nat.mod_eq_of_lt (show 1 < p by omega)]
  exact Nat.mod_eq_of_lt h

theorem mod_succ_eq (t p : Nat) (hp : 0 < p) (h : t % p + 1 = p) : (t + 1) % p = 0 := by
  rcases Nat.lt_or_ge p 2 with h2 | h2
  · have : p = 1 := by omega
    subst this
    simp [Nat.mod_one]
  · rw [Nat.add_mod t 1 p, Nat.mod_eq_of_lt (show 1 < p by omega), h, Nat.mod_self]

/-! ## The per-node invariant

Before a node's container is first exhausted (`t < length`, or forever when
the container is empty) the node is undiscovered: `size_ = fakesize_ = 0`
and its raw cursor and lap counter both equal the global step count.  After
discovery the node cycles with period `fakesize_`: the lap counter is the
global step count modulo `fakesize_`, and the raw cursor is parked at `end`
during the padding phase. -/
def NodeInv {α : Type} (t : Nat) (n : MPNode α) : Prop :=
  n.beginPos = 0 ∧
  ((n.seq.length = 0 ∨ t < n.seq.length) →
    n.size_ = 0 ∧ n.fakesize_ = 0 ∧ n.pos = t ∧ n.counter = t) ∧
  (1 ≤ n.seq.length → n.seq.length ≤ t →
    n.size_ = n.seq.length ∧ n.seq.length ≤ n.fakesize_ ∧
    n.counter = t % n.fakesize_ ∧ n.pos = min n.counter n.seq.length)

theorem NodeInv.discovered_iff {α : Type} {t : Nat} {n : MPNode α}
    (h : NodeInv t n) :
    n.fakesize_ ≠ 0 ↔ (1 ≤ n.seq.length ∧ n.seq.length ≤ t) := by
  obtain ⟨-, hU, hD⟩ := h
  constructor
  · intro hf
    by_contra hc
    push_neg at hc
    rcases Nat.eq_zero_or_pos n.seq.length with h0 | h0
    · exact hf (hU (Or.inl h0)).2.1
    · exact hf (hU (Or.inr (hc h0))).2.1
  · intro ⟨h1, h2⟩
    have := hD h1 h2
    omega

/-- The processing that one (non-terminal) `do_increment` frame applies to
its own node: the updated node, the updated running total, and whether this
frame returns `true` unconditionally (the `is_fake` boundary branch). -/
def nodeStep {α : Type} (n : MPNode α) (tot : Nat) : MPNode α × Nat × Bool :=
  let n1 := if is_fake n then n else { n with pos := n.pos + 1 }
  let n2 := { n1 with counter := n1.counter + 1 }
  if n2.pos = n2.seq.length then
    let d := if 0 < n2.counter ∧ n2.fakesize_ = 0 then
               set_size n2 tot n2.counter else (n2, tot)
    if is_fake d.1 then (d.1, d.2, true)
    else ({ d.1 with pos := d.1.beginPos, counter := 0 }, d.2, false)
  else (n2, tot, false)

theorem do_increment_cons {α : Type} (n : MPNode α) (rest : List (MPNode α))
    (tot g : Nat) :
    do_increment (n :: rest) tot g =
      ((nodeStep n tot).1 :: (do_increment rest (nodeStep n tot).2.1 g).1,
       (do_increment rest (nodeStep n tot).2.1 g).2.1,
       (do_increment rest (nodeStep n tot).2.1 g).2.2.1,
       ((nodeStep n tot).2.2 || (do_increment rest (nodeStep n tot).2.1 g).2.2.2)) := by
  rw [do_increment]
  unfold nodeStep
  repeat' split
  any_goals simp_all
  all_goals (repeat' split)
  all_goals simp_all

theorem nodeStep_eval_advance {α : Type} (n : MPNode α) (tot : Nat)
    (h1 : is_fake n = false) (h2 : ¬ n.pos + 1 = n.seq.length) :
    nodeStep n tot = ({ n with pos := n.pos + 1, counter := n.counter + 1 }, tot, false) := by
  simp [nodeStep, h1, h2]

theorem nodeStep_eval_boundary_disc {α : Type} (n : MPNode α) (tot : Nat)
    (h1 : is_fake n = false) (h2 : n.pos + 1 = n.seq.length) (h3 : n.fakesize_ ≠ 0) :
    nodeStep n tot =
      (if is_fake { n with pos := n.pos + 1, counter := n.counter + 1 } then
         ({ n with pos := n.pos + 1, counter := n.counter + 1 }, tot, true)
       else ({ n with pos := n.beginPos, counter := 0 }, tot, false)) := by
  simp [nodeStep, h1, h2, h3]

theorem nodeStep_eval_boundary_undisc {α : Type} (n : MPNode α) (tot : Nat)
    (h1 : is_fake n = false) (h2 : n.pos + 1 = n.seq.length) (h3 : n.fakesize_ = 0) :
    nodeStep n tot =
      (if is_fake { n with pos := n.pos + 1, counter := n.counter + 1,
                           size_ := n.counter + 1, fakesize_ := padOf tot (n.counter + 1) } then
         ({ n with pos := n.pos + 1, counter := n.counter + 1,
                   size_ := n.counter + 1, fakesize_ := padOf tot (n.counter + 1) },
          (if tot = 0 then n.counter + 1 else padOf tot (n.counter + 1) * tot), true)
       else ({ n with pos := n.beginPos, counter := 0,
                      size_ := n.counter + 1, fakesize_ := padOf tot (n.counter + 1) },
             (if tot = 0 then n.counter + 1 else padOf tot (n.counter + 1) * tot), false)) := by
  have hsz : (n.counter + 1) ≠ 0 := by omega
  simp [nodeStep, h1, h2, h3, set_size_eq _ _ _ hsz]

theorem nodeStep_eval_fake {α : Type} (n : MPNode α) (tot : Nat)
    (h1 : is_fake n = true) (h2 : n.pos = n.seq.length) :
    nodeStep n tot =
      (if is_fake { n with counter := n.counter + 1 } then
         ({ n with counter := n.counter + 1 }, tot, true)
       else ({ n with pos := n.beginPos, counter := 0 }, tot, false)) := by
  have h3 : n.fakesize_ ≠ 0 := ((is_fake_iff n).mp h1).1
  simp [nodeStep, h1, h2, h3]


/-- Everything one `do_increment` frame guarantees about its own node. -/
structure NodeStepFacts {α : Type} (t : Nat) (n : MPNode α) (tot : Nat)
    (r : MPNode α × Nat × Bool) : Prop where
  seq_eq : r.1.seq = n.seq
  inv : NodeInv (t + 1) r.1
  flag_eq : r.2.2 = is_fake r.1
  disc_preserved : n.fakesize_ ≠ 0 →
    r.1.size_ = n.size_ ∧ r.1.fakesize_ = n.fakesize_ ∧ r.2.1 = tot
  undisc_stay : n.fakesize_ = 0 → ¬ n.seq.length = t + 1 →
    r.1.size_ = 0 ∧ r.1.fakesize_ = 0 ∧ r.2.1 = tot
  newly : n.fakesize_ = 0 → n.seq.length = t + 1 →
    r.1.size_ = t + 1 ∧ r.1.fakesize_ = padOf tot (t + 1) ∧
      r.2.1 = (if tot = 0 then padOf tot (t + 1) else padOf tot (t + 1) * tot)

theorem nodeStep_spec {α : Type} (t : Nat) (n : MPNode α) (tot : Nat)
    (hInv : NodeInv t n) : NodeStepFacts t n tot (nodeStep n tot) := by
  obtain ⟨hb0, hU, hD⟩ := hInv
  rcases Nat.eq_zero_or_pos n.seq.length with hL0 | hL1
  · -- A: empty container, never discovered
    obtain ⟨hs, hf, hp, hc⟩ := hU (Or.inl hL0)
    have hfake : is_fake n = false := by
      rw [is_fake_eq_false_iff]
      intro h
      exact h.1 hf
    have hnb : ¬ n.pos + 1 = n.seq.length := by omega
    rw [nodeStep_eval_advance n tot hfake hnb]
    have hifake : is_fake { n with pos := n.pos + 1, counter := n.counter + 1 } = false := by
      rw [is_fake_eq_false_iff]
      intro h
      exact h.1 hf
    refine ⟨rfl, ⟨hb0, ?_, ?_⟩, ?_, ?_, ?_, ?_⟩
    · intro _
      refine ⟨hs, hf, ?_, ?_⟩ <;> (dsimp only; omega)
    · intro h1 h2
      dsimp only at h1 h2
      omega
    · dsimp only
      rw [hifake]
    · intro hne
      exact absurd hf hne
    · intro _ _
      exact ⟨hs, hf, rfl⟩
    · intro _ hl
      omega
  · rcases Nat.lt_or_ge t n.seq.length with hlt | hge
    · -- undiscovered, container not yet exhausted
      obtain ⟨hs, hf, hp, hc⟩ := hU (Or.inr hlt)
      have hfake : is_fake n = false := by
        rw [is_fake_eq_false_iff]
        intro h
        exact h.1 hf
      rcases Nat.lt_or_ge (t + 1) n.seq.length with hlt2 | hge2
      · -- B: still strictly inside
        have hnb : ¬ n.pos + 1 = n.seq.length := by omega
        rw [nodeStep_eval_advance n tot hfake hnb]
        have hifake : is_fake { n with pos := n.pos + 1, counter := n.counter + 1 } = false := by
          rw [is_fake_eq_false_iff]
          intro h
          exact h.1 hf
        refine ⟨rfl, ⟨hb0, ?_, ?_⟩, ?_, ?_, ?_, ?_⟩
        · intro _
          refine ⟨hs, hf, ?_, ?_⟩ <;> (dsimp only; omega)
        · intro h1 h2
          dsimp only at h1 h2
          omega
        · dsimp only
          rw [hifake]
        · intro hne
          exact absurd hf hne
        · intro _ _
          exact ⟨hs, hf, rfl⟩
        · intro _ hl
          omega
      · -- C: the container is exhausted at this step: discovery
        have hL : n.seq.length = t + 1 := by omega
        have hnb : n.pos + 1 = n.seq.length := by omega
        rw [nodeStep_eval_boundary_undisc n tot hfake hnb hf]
        have hc1 : n.counter + 1 = t + 1 := by omega
        rw [hc1]
        have hple : t + 1 ≤ padOf tot (t + 1) := le_padOf tot (t + 1)
        by_cases hpe : t + 1 < padOf tot (t + 1)
        · -- padding added: node parks at end in fake phase
          have hifake : is_fake { n with pos := n.pos + 1, counter := t + 1, size_ := t + 1, fakesize_ := padOf tot (t + 1) } = true := by
            rw [is_fake_iff]
            refine ⟨?_, ?_, ?_⟩ <;> (dsimp only; omega)
          rw [if_pos hifake]
          refine ⟨rfl, ⟨hb0, ?_, ?_⟩, ?_, ?_, ?_, ?_⟩
          · intro hor
            dsimp only at hor
            omega
          · intro h1 h2
            refine ⟨?_, ?_, ?_, ?_⟩
            · dsimp only
              omega
            · dsimp only
              omega
            · dsimp only
              rw [Nat.mod_eq_of_lt hpe]
            · dsimp only
              rw [hL, Nat.min_self]
              omega
          · dsimp only
            rw [hifake]
          · intro hne
            exact absurd hf hne
          · intro _ hl
            exact absurd hL hl
          · intro _ _
            refine ⟨rfl, rfl, ?_⟩
            dsimp only
            by_cases h0 : tot = 0
            · simp [h0, padOf]
            · simp [h0]
        · -- no padding needed: immediate wraparound
          have hpeq : padOf tot (t + 1) = t + 1 := by omega
          have hifake : is_fake { n with pos := n.pos + 1, counter := t + 1, size_ := t + 1, fakesize_ := padOf tot (t + 1) } = false := by
            rw [is_fake_eq_false_iff]
            intro h
            dsimp only at h
            omega
          rw [if_neg (by rw [hifake]; simp)]
          refine ⟨rfl, ⟨hb0, ?_, ?_⟩, ?_, ?_, ?_, ?_⟩
          · intro hor
            dsimp only at hor
            omega
          · intro h1 h2
            refine ⟨?_, ?_, ?_, ?_⟩
            · dsimp only
              omega
            · dsimp only
              omega
            · dsimp only
              rw [hpeq, Nat.mod_self]
            · dsimp only
              rw [hb0]
              rw [Nat.min_eq_left (Nat.zero_le _)]
          · dsimp only
            have : is_fake { n with pos := n.beginPos, counter := 0, size_ := t + 1, fakesize_ := padOf tot (t + 1) } = false := by
              rw [is_fake_eq_false_iff]
              intro h
              dsimp only at h
              omega
            rw [this]
          · intro hne
            exact absurd hf hne
          · intro _ hl
            exact absurd hL hl
          · intro _ _
            refine ⟨rfl, rfl, ?_⟩
            dsimp only
            by_cases h0 : tot = 0
            · simp [h0, padOf]
            · simp [h0]
    · -- D: discovered
      obtain ⟨hs, hfp, hc, hp⟩ := hD hL1 hge
      have hppos : 0 < n.fakesize_ := by omega
      have hclt : n.counter < n.fakesize_ := by
        rw [hc]
        exact Nat.mod_lt _ hppos
      by_cases hfk : n.seq.length ≤ n.counter
      · -- D2: currently in fake phase, parked at end
        have hfake : is_fake n = true := by
          rw [is_fake_iff]
          exact ⟨by omega, by omega, hclt⟩
        have hpl : n.pos = n.seq.length := by
          rw [hp]
          exact Nat.min_eq_right hfk
        rw [nodeStep_eval_fake n tot hfake hpl]
        by_cases hcp : n.counter + 1 < n.fakesize_
        · have hifake : is_fake { n with counter := n.counter + 1 } = true := by
            rw [is_fake_iff]
            refine ⟨?_, ?_, ?_⟩ <;> (dsimp only; omega)
          rw [if_pos hifake]
          refine ⟨rfl, ⟨hb0, ?_, ?_⟩, ?_, ?_, ?_, ?_⟩
          · intro hor
            dsimp only at hor
            omega
          · intro h1 h2
            refine ⟨hs, hfp, ?_, ?_⟩
            · dsimp only
              rw [mod_succ_lt t n.fakesize_ (by omega)]
              omega
            · dsimp only
              rw [hpl, Nat.min_eq_right (by omega)]
          · dsimp only
            rw [hifake]
          · intro _
            exact ⟨rfl, rfl, rfl⟩
          · intro h0 _
            omega
          · intro h0 _
            omega
        · -- D2b: the padding phase ends: wraparound
          have hcpe : n.counter + 1 = n.fakesize_ := by omega
          have hifake : is_fake { n with counter := n.counter + 1 } = false := by
            rw [is_fake_eq_false_iff]
            intro h
            dsimp only at h
            omega
          rw [if_neg (by rw [hifake]; simp)]
          refine ⟨rfl, ⟨?_, ?_, ?_⟩, ?_, ?_, ?_, ?_⟩
          · exact hb0
          · intro hor
            dsimp only at hor
            omega
          · intro h1 h2
            refine ⟨hs, hfp, ?_, ?_⟩
            · dsimp only
              rw [mod_succ_eq t n.fakesize_ hppos (by omega)]
            · dsimp only
              rw [hb0, Nat.min_eq_left (Nat.zero_le _)]
          · dsimp only
            have : is_fake { n with pos := n.beginPos, counter := 0 } = false := by
              rw [is_fake_eq_false_iff]
              intro h
              dsimp only at h
              omega
            rw [this]
          · intro _
            exact ⟨rfl, rfl, rfl⟩
          · intro h0 _
            omega
          · intro h0 _
            omega
      · -- D1: in the real phase
        push_neg at hfk
        have hfake : is_fake n = false := by
          rw [is_fake_eq_false_iff]
          intro h
          omega
        have hpc : n.pos = n.counter := by
          rw [hp]
          exact Nat.min_eq_left (by omega)
        by_cases hb : n.counter + 1 = n.seq.length
        · -- D1b: boundary reached
          have hnb : n.pos + 1 = n.seq.length := by omega
          rw [nodeStep_eval_boundary_disc n tot hfake hnb (by omega)]
          by_cases hLp : n.seq.length < n.fakesize_
          · have hifake : is_fake { n with pos := n.pos + 1, counter := n.counter + 1 } = true := by
              rw [is_fake_iff]
              refine ⟨?_, ?_, ?_⟩ <;> (dsimp only; omega)
            rw [if_pos hifake]
            refine ⟨rfl, ⟨hb0, ?_, ?_⟩, ?_, ?_, ?_, ?_⟩
            · intro hor
              dsimp only at hor
              omega
            · intro h1 h2
              refine ⟨hs, hfp, ?_, ?_⟩
              · dsimp only
                rw [mod_succ_lt t n.fakesize_ (by omega)]
                omega
              · dsimp only
                rw [hb, Nat.min_self]
                omega
            · dsimp only
              rw [hifake]
            · intro _
              exact ⟨rfl, rfl, rfl⟩
            · intro h0 _
              omega
            · intro h0 _
              omega
          · -- fakesize equals length: clean wraparound
            have hifake : is_fake { n with pos := n.pos + 1, counter := n.counter + 1 } = false := by
              rw [is_fake_eq_false_iff]
              intro h
              dsimp only at h
              omega
            rw [if_neg (by rw [hifake]; simp)]
            refine ⟨rfl, ⟨?_, ?_, ?_⟩, ?_, ?_, ?_, ?_⟩
            · exact hb0
            · intro hor
              dsimp only at hor
              omega
            · intro h1 h2
              refine ⟨hs, hfp, ?_, ?_⟩
              · dsimp only
                rw [mod_succ_eq t n.fakesize_ hppos (by omega)]
              · dsimp only
                rw [hb0, Nat.min_eq_left (Nat.zero_le _)]
            · dsimp only
              have : is_fake { n with pos := n.beginPos, counter := 0 } = false := by
                rw [is_fake_eq_false_iff]
                intro h
                dsimp only at h
                omega
              rw [this]
            · intro _
              exact ⟨rfl, rfl, rfl⟩
            · intro h0 _
              omega
            · intro h0 _
              omega
        · -- D1a: plain advance
          have hnb : ¬ n.pos + 1 = n.seq.length := by omega
          rw [nodeStep_eval_advance n tot hfake hnb]
          have hifake : is_fake { n with pos := n.pos + 1, counter := n.counter + 1 } = false := by
            rw [is_fake_eq_false_iff]
            intro h
            dsimp only at h
            omega
          refine ⟨rfl, ⟨hb0, ?_, ?_⟩, ?_, ?_, ?_, ?_⟩
          · intro hor
            dsimp only at hor
            omega
          · intro h1 h2
            refine ⟨hs, hfp, ?_, ?_⟩
            · dsimp only
              rw [mod_succ_lt t n.fakesize_ (by omega)]
              omega
            · dsimp only
              rw [Nat.min_eq_left (by omega)]
              omega
          · dsimp only
            rw [hifake]
          · intro _
            exact ⟨rfl, rfl, rfl⟩
          · intro h0 _
            omega
          · intro h0 _
            omega

/-! ## Bookkeeping for discovered padded lengths -/

/-- The padded lengths (`fakesize_`) of the already-discovered nodes of a
chain, in chain order. -/
def discoveredPads {α : Type} : List (MPNode α) → List Nat
  | [] => []
  | n :: rest =>
    if n.fakesize_ ≠ 0 then n.fakesize_ :: discoveredPads rest
    else discoveredPads rest

/-- The padded lengths of the nodes that are newly discovered between two
aligned chain snapshots, in chain order. -/
def newlyPads {α : Type} : List (MPNode α) → List (MPNode α) → List Nat
  | n :: old, m :: new =>
    if n.fakesize_ = 0 ∧ m.fakesize_ ≠ 0 then m.fakesize_ :: newlyPads old new
    else newlyPads old new
  | _, _ => []

/-- The running total backed by a list of discovered padded lengths:
`0` while nothing is discovered (the C++ initial value), otherwise the
product. -/
def prodOpt (l : List Nat) : Nat :=
  if l = [] then 0 else l.prod

theorem prodOpt_nil : prodOpt [] = 0 := rfl

theorem prodOpt_ne_nil (l : List Nat) (h : l ≠ []) : prodOpt l = l.prod := by
  simp [prodOpt, h]

theorem prodOpt_perm {l l2 : List Nat} (h : l.Perm l2) : prodOpt l = prodOpt l2 := by
  rcases eq_or_ne l [] with h0 | h0
  · subst h0
    rw [List.Perm.eq_nil h.symm]
  · have h2 : l2 ≠ [] := by
      intro hc
      subst hc
      exact h0 (List.Perm.eq_nil h)
    rw [prodOpt_ne_nil l h0, prodOpt_ne_nil l2 h2]
    exact List.Perm.prod_eq h

theorem prodOpt_pos (l : List Nat) (hl : ∀ x ∈ l, 0 < x) (hne : l ≠ []) :
    0 < prodOpt l := by
  rw [prodOpt_ne_nil l hne]
  exact List.prod_pos hl

theorem prodOpt_eq_zero_iff (l : List Nat) (hl : ∀ x ∈ l, 0 < x) :
    prodOpt l = 0 ↔ l = [] := by
  constructor
  · intro h
    by_contra hc
    have := prodOpt_pos l hl hc
    omega
  · intro h
    subst h
    rfl

theorem prodOpt_cons (Z : List Nat) (p : Nat) (hZ : ∀ x ∈ Z, 0 < x) :
    (if prodOpt Z = 0 then p else p * prodOpt Z) = prodOpt (p :: Z) := by
  rcases eq_or_ne Z [] with h0 | h0
  · subst h0
    simp [prodOpt]
  · rw [prodOpt_ne_nil Z h0, prodOpt_ne_nil (p :: Z) (by simp)]
    have := List.prod_pos hZ
    rw [if_neg (by omega)]
    simp [List.prod_cons]

theorem perm_shift (A B C : List Nat) (p : Nat) :
    ((A ++ [p]) ++ B ++ C).Perm (A ++ B ++ (p :: C)) := by
  have h1 : (A ++ [p]) ++ B ++ C = A ++ (p :: (B ++ C)) := by simp
  have h2 : A ++ B ++ (p :: C) = A ++ (B ++ (p :: C)) := by simp
  rw [h1, h2]
  exact List.Perm.append_left A List.perm_middle.symm

theorem mem_discoveredPads {α : Type} :
    ∀ (ns : List (MPNode α)) (x : Nat),
      x ∈ discoveredPads ns ↔ ∃ n, n ∈ ns ∧ n.fakesize_ ≠ 0 ∧ x = n.fakesize_
  | [], x => by simp [discoveredPads]
  | n :: rest, x => by
    rw [discoveredPads]
    by_cases h : n.fakesize_ ≠ 0
    · rw [if_pos h]
      simp only [List.mem_cons, mem_discoveredPads rest x]
      constructor
      · rintro (rfl | ⟨m, hm, hf, rfl⟩)
        · exact ⟨n, Or.inl rfl, h, rfl⟩
        · exact ⟨m, Or.inr hm, hf, rfl⟩
      · rintro ⟨m, (rfl | hm), hf, rfl⟩
        · exact Or.inl rfl
        · exact Or.inr ⟨m, hm, hf, rfl⟩
    · rw [if_neg h]
      push_neg at h
      simp only [mem_discoveredPads rest x, List.mem_cons]
      constructor
      · rintro ⟨m, hm, hf, rfl⟩
        exact ⟨m, Or.inr hm, hf, rfl⟩
      · rintro ⟨m, (rfl | hm), hf, rfl⟩
        · exact absurd h hf
        · exact ⟨m, hm, hf, rfl⟩

theorem discoveredPads_pos {α : Type} {t : Nat} (ns : List (MPNode α))
    (h : ∀ n ∈ ns, NodeInv t n) : ∀ x ∈ discoveredPads ns, 0 < x := by
  intro x hx
  obtain ⟨n, hn, hf, rfl⟩ := (mem_discoveredPads ns x).mp hx
  omega

theorem getElem_mem_discoveredPads {α : Type} (ns : List (MPNode α)) (i : Nat)
    (hi : i < ns.length) (h : (ns[i]).fakesize_ ≠ 0) :
    (ns[i]).fakesize_ ∈ discoveredPads ns := by
  exact (mem_discoveredPads ns _).mpr ⟨ns[i], List.getElem_mem hi, h, rfl⟩

/-- Everything one whole-chain `do_increment` call guarantees, relative to a
list `A` of externally accounted padded lengths backing the incoming total. -/
structure ChainFacts {α : Type} (t : Nat) (ns : List (MPNode α)) (A : List Nat)
    (R : List (MPNode α) × Nat × Nat × Bool) : Prop where
  len_eq : R.1.length = ns.length
  seq_eq : ∀ i (hi : i < ns.length) (hi2 : i < R.1.length), (R.1[i]).seq = (ns[i]).seq
  inv : ∀ n ∈ R.1, NodeInv (t + 1) n
  pres : ∀ i (hi : i < ns.length) (hi2 : i < R.1.length), (ns[i]).fakesize_ ≠ 0 →
    (R.1[i]).size_ = (ns[i]).size_ ∧ (R.1[i]).fakesize_ = (ns[i]).fakesize_
  stay : ∀ i (hi : i < ns.length) (hi2 : i < R.1.length), (ns[i]).fakesize_ = 0 →
    ¬ (ns[i]).seq.length = t + 1 → (R.1[i]).size_ = 0 ∧ (R.1[i]).fakesize_ = 0
  newly_eq : ∀ i (hi : i < ns.length) (hi2 : i < R.1.length), (ns[i]).fakesize_ = 0 →
    (ns[i]).seq.length = t + 1 →
    (R.1[i]).size_ = t + 1 ∧
      (R.1[i]).fakesize_ =
        padOf (prodOpt (A ++ discoveredPads ns ++ newlyPads (ns.take i) (R.1.take i))) (t + 1)
  tot_eq : R.2.1 = prodOpt (A ++ discoveredPads ns ++ newlyPads ns R.1)
  flag_eq : R.2.2.2 = R.1.any is_fake
  pads_perm : (discoveredPads R.1).Perm (discoveredPads ns ++ newlyPads ns R.1)

theorem do_increment_chain {α : Type} (g : Nat) :
    ∀ (ns : List (MPNode α)) (t : Nat) (A : List Nat) (tot : Nat),
      (∀ n ∈ ns, NodeInv t n) →
      tot = prodOpt (A ++ discoveredPads ns) →
      (∀ x ∈ A, 0 < x) →
      ChainFacts t ns A (do_increment ns tot g)
  | [], t, A, tot, h1, h2, h3 => by
    rw [do_increment]
    refine ⟨rfl, ?_, ?_, ?_, ?_, ?_, ?_, ?_, ?_⟩
    · intro i hi
      simp at hi
    · intro m hm
      simp at hm
    · intro i hi
      simp at hi
    · intro i hi
      simp at hi
    · intro i hi
      simp at hi
    · simpa [discoveredPads, newlyPads] using h2
    · rfl
    · simp [discoveredPads, newlyPads]
  | n :: rest, t, A, tot, h1, h2, h3 => by
    have hn := h1 n (List.mem_cons_self n rest)
    have hrest : ∀ m ∈ rest, NodeInv t m := fun m hm => h1 m (List.mem_cons_of_mem n hm)
    have facts := nodeStep_spec t n tot hn
    rw [do_increment_cons]
    by_cases hdisc : n.fakesize_ ≠ 0
    · -- head already discovered: its pad moves from the chain into `A`
      obtain ⟨hps, hpf, hpt⟩ := facts.disc_preserved hdisc
      have hdp : discoveredPads (n :: rest) = n.fakesize_ :: discoveredPads rest := by
        simp [discoveredPads, hdisc]
      have hA2 : ∀ x ∈ A ++ [n.fakesize_], 0 < x := by
        intro x hx
        rcases List.mem_append.mp hx with h | h
        · exact h3 x h
        · simp at h
          omega
      have h22 : tot = prodOpt ((A ++ [n.fakesize_]) ++ discoveredPads rest) := by
        rw [h2, hdp]
        congr 1
        simp
      have IH := do_increment_chain g rest t (A ++ [n.fakesize_]) tot hrest h22 hA2
      have IH2 : ChainFacts t rest (A ++ [n.fakesize_])
          (do_increment rest (nodeStep n tot).2.1 g) := by
        rw [hpt]
        exact IH
      have hnew0 : newlyPads (n :: rest) ((nodeStep n tot).1 :: (do_increment rest (nodeStep n tot).2.1 g).1) = newlyPads rest (do_increment rest (nodeStep n tot).2.1 g).1 := by
        rw [newlyPads, if_neg]
        intro hc
        exact hdisc hc.1
      refine ⟨?_, ?_, ?_, ?_, ?_, ?_, ?_, ?_, ?_⟩
      · simp [IH2.len_eq]
      · intro i hi hi2
        cases i with
        | zero => exact facts.seq_eq
        | succ j =>
          have hj : j < rest.length := by
            simp at hi
            omega
          have hj2 : j < (do_increment rest (nodeStep n tot).2.1 g).1.length := by
            simp at hi2
            omega
          exact IH2.seq_eq j hj hj2
      · intro m hm
        rcases List.mem_cons.mp hm with rfl | hm2
        · exact facts.inv
        · exact IH2.inv m hm2
      · intro i hi hi2 hf
        cases i with
        | zero => exact ⟨hps, hpf⟩
        | succ j =>
          have hj : j < rest.length := by
            simp at hi
            omega
          have hj2 : j < (do_increment rest (nodeStep n tot).2.1 g).1.length := by
            simp at hi2
            omega
          exact IH2.pres j hj hj2 hf
      · intro i hi hi2 hf hl
        cases i with
        | zero => exact absurd hf hdisc
        | succ j =>
          have hj : j < rest.length := by
            simp at hi
            omega
          have hj2 : j < (do_increment rest (nodeStep n tot).2.1 g).1.length := by
            simp at hi2
            omega
          exact IH2.stay j hj hj2 hf hl
      · intro i hi hi2 hf hl
        cases i with
        | zero => exact absurd hf hdisc
        | succ j =>
          have hj : j < rest.length := by
            simp at hi
            omega
          have hj2 : j < (do_increment rest (nodeStep n tot).2.1 g).1.length := by
            simp at hi2
            omega
          have e := IH2.newly_eq j hj hj2 hf hl
          refine ⟨e.1, ?_⟩
          have hlist : A ++ discoveredPads (n :: rest) ++
              newlyPads ((n :: rest).take (j + 1)) (((nodeStep n tot).1 :: (do_increment rest (nodeStep n tot).2.1 g).1).take (j + 1)) =
              (A ++ [n.fakesize_]) ++ discoveredPads rest ++ newlyPads (rest.take j) ((do_increment rest (nodeStep n tot).2.1 g).1.take j) := by
            rw [hdp, List.take_succ_cons, List.take_succ_cons, newlyPads, if_neg]
            · simp
            · intro hc
              exact hdisc hc.1
          rw [hlist]
          exact e.2
      · have hlist : A ++ discoveredPads (n :: rest) ++ newlyPads rest (do_increment rest (nodeStep n tot).2.1 g).1 =
            (A ++ [n.fakesize_]) ++ discoveredPads rest ++ newlyPads rest (do_increment rest (nodeStep n tot).2.1 g).1 := by
          rw [hdp]
          simp
        rw [hnew0, hlist]
        exact IH2.tot_eq
      · rw [facts.flag_eq, IH2.flag_eq]
        simp [List.any_cons]
      · have hh : discoveredPads ((nodeStep n tot).1 :: (do_increment rest (nodeStep n tot).2.1 g).1) =
            (nodeStep n tot).1.fakesize_ :: discoveredPads (do_increment rest (nodeStep n tot).2.1 g).1 := by
          rw [discoveredPads, if_pos]
          rw [hpf]
          exact hdisc
        rw [hh, hnew0, hdp, hpf]
        exact List.Perm.cons n.fakesize_ IH2.pads_perm
    · -- head not yet discovered
      push_neg at hdisc
      by_cases hnew : n.seq.length = t + 1
      · -- head discovers its length at this step
        obtain ⟨hns, hnf, hnt⟩ := facts.newly hdisc hnew
        have hdp : discoveredPads (n :: rest) = discoveredPads rest := by
          simp [discoveredPads, hdisc]
        have hp0 : 0 < padOf tot (t + 1) := by
          have := le_padOf tot (t + 1)
          omega
        have hposZ : ∀ x ∈ A ++ discoveredPads rest, 0 < x := by
          intro x hx
          rcases List.mem_append.mp hx with h | h
          · exact h3 x h
          · exact discoveredPads_pos rest hrest x h
        have hA2 : ∀ x ∈ A ++ [padOf tot (t + 1)], 0 < x := by
          intro x hx
          rcases List.mem_append.mp hx with h | h
          · exact h3 x h
          · simp at h
            omega
        have htt : tot = prodOpt (A ++ discoveredPads rest) := by
          rw [h2, hdp]
        have h22 : (nodeStep n tot).2.1 = prodOpt ((A ++ [padOf tot (t + 1)]) ++ discoveredPads rest) := by
          have hc := prodOpt_cons (A ++ discoveredPads rest) (padOf tot (t + 1)) hposZ
          rw [← htt] at hc
          rw [hnt, hc]
          have hsh : (A ++ [padOf tot (t + 1)]) ++ discoveredPads rest =
              A ++ (padOf tot (t + 1) :: discoveredPads rest) := by simp
          rw [hsh]
          exact prodOpt_perm List.perm_middle.symm
        have IH2 := do_increment_chain g rest t (A ++ [padOf tot (t + 1)])
          ((nodeStep n tot).2.1) hrest h22 hA2
        have hnew0 : newlyPads (n :: rest) ((nodeStep n tot).1 :: (do_increment rest (nodeStep n tot).2.1 g).1) = (nodeStep n tot).1.fakesize_ :: newlyPads rest (do_increment rest (nodeStep n tot).2.1 g).1 := by
          rw [newlyPads, if_pos]
          constructor
          · exact hdisc
          · rw [hnf]
            omega
        refine ⟨?_, ?_, ?_, ?_, ?_, ?_, ?_, ?_, ?_⟩
        · simp [IH2.len_eq]
        · intro i hi hi2
          cases i with
          | zero => exact facts.seq_eq
          | succ j =>
            have hj : j < rest.length := by
              simp at hi
              omega
            have hj2 : j < (do_increment rest (nodeStep n tot).2.1 g).1.length := by
              simp at hi2
              omega
            exact IH2.seq_eq j hj hj2
        · intro m hm
          rcases List.mem_cons.mp hm with rfl | hm2
          · exact facts.inv
          · exact IH2.inv m hm2
        · intro i hi hi2 hf
          cases i with
          | zero => exact absurd hdisc hf
          | succ j =>
            have hj : j < rest.length := by
              simp at hi
              omega
            have hj2 : j < (do_increment rest (nodeStep n tot).2.1 g).1.length := by
              simp at hi2
              omega
            exact IH2.pres j hj hj2 hf
        · intro i hi hi2 hf hl
          cases i with
          | zero => exact absurd hnew hl
          | succ j =>
            have hj : j < rest.length := by
              simp at hi
              omega
            have hj2 : j < (do_increment rest (nodeStep n tot).2.1 g).1.length := by
              simp at hi2
              omega
            exact IH2.stay j hj hj2 hf hl
        · intro i hi hi2 hf hl
          cases i with
          | zero =>
            refine ⟨hns, ?_⟩
            show (nodeStep n tot).1.fakesize_ = _
            rw [hnf]
            simp only [List.take_zero]
            have hlist : A ++ discoveredPads (n :: rest) ++ newlyPads ([] : List (MPNode α)) [] = A ++ discoveredPads rest := by
              rw [hdp]
              simp [newlyPads]
            rw [hlist, ← htt]
          | succ j =>
            have hj : j < rest.length := by
              simp at hi
              omega
            have hj2 : j < (do_increment rest (nodeStep n tot).2.1 g).1.length := by
              simp at hi2
              omega
            have e := IH2.newly_eq j hj hj2 hf hl
            refine ⟨e.1, ?_⟩
            show (do_increment rest (nodeStep n tot).2.1 g).1[j].fakesize_ = _
            rw [e.2]
            simp only [List.take_succ_cons]
            have hlist : A ++ discoveredPads (n :: rest) ++ newlyPads (n :: rest.take j) ((nodeStep n tot).1 :: (do_increment rest (nodeStep n tot).2.1 g).1.take j) = A ++ discoveredPads rest ++ (padOf tot (t + 1) :: newlyPads (rest.take j) ((do_increment rest (nodeStep n tot).2.1 g).1.take j)) := by
              rw [hdp, newlyPads, if_pos]
              · rw [hnf]
              · constructor
                · exact hdisc
                · rw [hnf]
                  omega
            rw [hlist]
            congr 1
            apply prodOpt_perm
            exact perm_shift A (discoveredPads rest) (newlyPads (rest.take j) ((do_increment rest (nodeStep n tot).2.1 g).1.take j)) (padOf tot (t + 1))
        · rw [IH2.tot_eq, hnew0, hnf, hdp]
          apply prodOpt_perm
          exact perm_shift A (discoveredPads rest) (newlyPads rest (do_increment rest (nodeStep n tot).2.1 g).1) (padOf tot (t + 1))
        · rw [facts.flag_eq, IH2.flag_eq]
          simp [List.any_cons]
        · have hh : discoveredPads ((nodeStep n tot).1 :: (do_increment rest (nodeStep n tot).2.1 g).1) =
              (nodeStep n tot).1.fakesize_ :: discoveredPads (do_increment rest (nodeStep n tot).2.1 g).1 := by
            rw [discoveredPads, if_pos]
            rw [hnf]
            omega
          rw [hh, hnew0, hdp, hnf]
          refine List.Perm.trans (List.Perm.cons _ IH2.pads_perm) ?_
          have hx : discoveredPads rest ++ newlyPads rest (do_increment rest (nodeStep n tot).2.1 g).1 = discoveredPads rest ++ newlyPads rest (do_increment rest (nodeStep n tot).2.1 g).1 ++ [] := by simp
          exact List.perm_middle.symm
      · -- head stays undiscovered
        obtain ⟨hss, hsf, hst⟩ := facts.undisc_stay hdisc hnew
        have hdp : discoveredPads (n :: rest) = discoveredPads rest := by
          simp [discoveredPads, hdisc]
        have h22 : tot = prodOpt (A ++ discoveredPads rest) := by
          rw [h2, hdp]
        have IH := do_increment_chain g rest t A tot hrest h22 h3
        have IH2 : ChainFacts t rest A (do_increment rest (nodeStep n tot).2.1 g) := by
          rw [hst]
          exact IH
        have hnew0 : newlyPads (n :: rest) ((nodeStep n tot).1 :: (do_increment rest (nodeStep n tot).2.1 g).1) = newlyPads rest (do_increment rest (nodeStep n tot).2.1 g).1 := by
          rw [newlyPads, if_neg]
          intro hc
          exact hc.2 hsf
        refine ⟨?_, ?_, ?_, ?_, ?_, ?_, ?_, ?_, ?_⟩
        · simp [IH2.len_eq]
        · intro i hi hi2
          cases i with
          | zero => exact facts.seq_eq
          | succ j =>
            have hj : j < rest.length := by
              simp at hi
              omega
            have hj2 : j < (do_increment rest (nodeStep n tot).2.1 g).1.length := by
              simp at hi2
              omega
            exact IH2.seq_eq j hj hj2
        · intro m hm
          rcases List.mem_cons.mp hm with rfl | hm2
          · exact facts.inv
          · exact IH2.inv m hm2
        · intro i hi hi2 hf
          cases i with
          | zero => exact absurd hdisc hf
          | succ j =>
            have hj : j < rest.length := by
              simp at hi
              omega
            have hj2 : j < (do_increment rest (nodeStep n tot).2.1 g).1.length := by
              simp at hi2
              omega
            exact IH2.pres j hj hj2 hf
        · intro i hi hi2 hf hl
          cases i with
          | zero => exact ⟨hss, hsf⟩
          | succ j =>
            have hj : j < rest.length := by
              simp at hi
              omega
            have hj2 : j < (do_increment rest (nodeStep n tot).2.1 g).1.length := by
              simp at hi2
              omega
            exact IH2.stay j hj hj2 hf hl
        · intro i hi hi2 hf hl
          cases i with
          | zero => exact absurd hl hnew
          | succ j =>
            have hj : j < rest.length := by
              simp at hi
              omega
            have hj2 : j < (do_increment rest (nodeStep n tot).2.1 g).1.length := by
              simp at hi2
              omega
            have e := IH2.newly_eq j hj hj2 hf hl
            refine ⟨e.1, ?_⟩
            have hlist : A ++ discoveredPads (n :: rest) ++ newlyPads ((n :: rest).take (j + 1)) (((nodeStep n tot).1 :: (do_increment rest (nodeStep n tot).2.1 g).1).take (j + 1)) = A ++ discoveredPads rest ++ newlyPads (rest.take j) ((do_increment rest (nodeStep n tot).2.1 g).1.take j) := by
              rw [hdp, List.take_succ_cons, List.take_succ_cons, newlyPads, if_neg]
              intro hc
              exact hc.2 hsf
            rw [hlist]
            exact e.2
        · rw [IH2.tot_eq, hnew0, hdp]
        · rw [facts.flag_eq, IH2.flag_eq]
          simp [List.any_cons]
        · have hh : discoveredPads ((nodeStep n tot).1 :: (do_increment rest (nodeStep n tot).2.1 g).1) =
              discoveredPads (do_increment rest (nodeStep n tot).2.1 g).1 := by
            rw [discoveredPads, if_neg]
            intro hc
            exact hc hsf
          rw [hh, hnew0, hdp]
          exact IH2.pads_perm

theorem mem_newlyPads_pos {α : Type} :
    ∀ (xs ys : List (MPNode α)) (x : Nat), x ∈ newlyPads xs ys → 0 < x
  | [], _, x, h => by simp [newlyPads] at h
  | _ :: _, [], x, h => by simp [newlyPads] at h
  | a :: xs, b :: ys, x, h => by
    rw [newlyPads] at h
    split at h
    · rename_i hc
      rcases List.mem_cons.mp h with rfl | h2
      · omega
      · exact mem_newlyPads_pos xs ys x h2
    · exact mem_newlyPads_pos xs ys x h

theorem mem_newlyPads_of {α : Type} :
    ∀ (xs ys : List (MPNode α)) (k : Nat) (hk : k < xs.length) (hk2 : k < ys.length),
      (xs[k]).fakesize_ = 0 → (ys[k]).fakesize_ ≠ 0 →
      (ys[k]).fakesize_ ∈ newlyPads xs ys
  | x :: xs, y :: ys, 0, _, _, h1, h2 => by
    rw [newlyPads, if_pos ⟨h1, h2⟩]
    exact List.mem_cons_self _ _
  | x :: xs, y :: ys, k + 1, hk, hk2, h1, h2 => by
    rw [newlyPads]
    have hk3 : k < xs.length := by
      simp at hk
      omega
    have hk4 : k < ys.length := by
      simp at hk2
      omega
    have := mem_newlyPads_of xs ys k hk3 hk4 h1 h2
    split
    · exact List.mem_cons_of_mem _ this
    · exact this

theorem coprime_padOf_of_mem (B : List Nat) (L x : Nat) (hx : x ∈ B)
    (hpos : ∀ y ∈ B, 0 < y) : Nat.Coprime (padOf (prodOpt B) L) x := by
  have hBne : B ≠ [] := by
    intro h
    subst h
    simp at hx
  have htot : 0 < prodOpt B := prodOpt_pos B hpos hBne
  have hcop : Nat.Coprime (padOf (prodOpt B) L) (prodOpt B) :=
    (padOf_pos_spec (prodOpt B) L htot).2.1
  have hdvd : x ∣ prodOpt B := by
    rw [prodOpt_ne_nil B hBne]
    exact List.dvd_prod hx
  exact Nat.Coprime.coprime_dvd_right hdvd hcop

theorem nodeStep_seq {α : Type} (n : MPNode α) (tot : Nat) :
    (nodeStep n tot).1.seq = n.seq := by
  rw [nodeStep]
  repeat' split
  any_goals simp_all [set_size]
  all_goals (repeat' split)
  all_goals simp_all [set_size]

theorem do_increment_length {α : Type} :
    ∀ (ns : List (MPNode α)) (tot g : Nat),
      (do_increment ns tot g).1.length = ns.length
  | [], _, _ => rfl
  | n :: rest, tot, g => by
    rw [do_increment_cons]
    simpa using do_increment_length rest _ g

theorem do_increment_seq {α : Type} :
    ∀ (ns : List (MPNode α)) (tot g : Nat) (i : Nat) (hi : i < ns.length)
      (hi2 : i < (do_increment ns tot g).1.length),
      ((do_increment ns tot g).1[i]).seq = (ns[i]).seq
  | [], _, _, i, hi, _ => by simp at hi
  | n :: rest, tot, g, i, hi, hi2 => by
    have hl : (do_increment (n :: rest) tot g).1 =
        (nodeStep n tot).1 :: (do_increment rest (nodeStep n tot).2.1 g).1 := by
      rw [do_increment_cons]
    cases i with
    | zero =>
      simp only [hl, List.getElem_cons_zero]
      exact nodeStep_seq n tot
    | succ j =>
      have hj : j < rest.length := by
        simp at hi
        omega
      have hj2 : j < (do_increment rest (nodeStep n tot).2.1 g).1.length := by
        rw [hl] at hi2
        simp at hi2
        omega
      simp only [hl, List.getElem_cons_succ]
      exact do_increment_seq rest _ g j hj hj2

theorem reach_len {α : Type} (seqs : List (List α)) :
    ∀ t, (reach seqs t).nodes.length = seqs.length
  | 0 => by simp [reach, beginState]
  | t + 1 => by
    rw [reach]
    show (do_increment (reach seqs t).nodes _ _).1.length = _
    rw [do_increment_length]
    exact reach_len seqs t

theorem reach_seq {α : Type} (seqs : List (List α)) :
    ∀ (t i : Nat) (hi : i < (reach seqs t).nodes.length) (hi2 : i < seqs.length),
      ((reach seqs t).nodes[i]).seq = seqs[i]
  | 0, i, hi, hi2 => by
    simp [reach, beginState]
  | t + 1, i, hi, hi2 => by
    have h1 : i < (reach seqs t).nodes.length := by
      rw [reach_len seqs t]
      rw [reach_len seqs (t + 1)] at hi
      exact hi
    have step : ((reach seqs (t + 1)).nodes[i]).seq =
        (((reach seqs t).nodes)[i]).seq :=
      do_increment_seq (reach seqs t).nodes (reach seqs t).total
        (reach seqs t).gcounter i h1 hi
    rw [step]
    exact reach_seq seqs t i h1 hi2

theorem discoveredPads_of_all_zero {α : Type} :
    ∀ (ns : List (MPNode α)), (∀ n ∈ ns, n.fakesize_ = 0) → discoveredPads ns = []
  | [], _ => rfl
  | n :: rest, h => by
    have h0 := h n (List.mem_cons_self n rest)
    rw [discoveredPads, if_neg (by omega)]
    exact discoveredPads_of_all_zero rest fun m hm => h m (List.mem_cons_of_mem n hm)

/-- The step-indexed state invariant for the whole traversal. -/
structure StateInv {α : Type} (t : Nat) (s : MPState α) : Prop where
  inv : ∀ n ∈ s.nodes, NodeInv t n
  gcounter_eq : s.gcounter = t
  total_eq : s.total = prodOpt (discoveredPads s.nodes)
  coprime : ∀ i j (hi : i < s.nodes.length) (hj : j < s.nodes.length), i ≠ j →
    (s.nodes[i]).fakesize_ ≠ 0 → (s.nodes[j]).fakesize_ ≠ 0 →
    Nat.Coprime (s.nodes[i]).fakesize_ (s.nodes[j]).fakesize_

theorem stateInv_begin {α : Type} (seqs : List (List α)) :
    StateInv 0 (beginState seqs) := by
  refine ⟨?_, rfl, ?_, ?_⟩
  · intro n hn
    simp only [beginState, List.mem_map] at hn
    obtain ⟨l, -, rfl⟩ := hn
    refine ⟨rfl, fun _ => ⟨rfl, rfl, rfl, rfl⟩, ?_⟩
    intro h1 h2
    omega
  · have hz : ∀ n ∈ (beginState seqs).nodes, n.fakesize_ = 0 := by
      intro n hn
      simp only [beginState, List.mem_map] at hn
      obtain ⟨l, -, rfl⟩ := hn
      rfl
    rw [discoveredPads_of_all_zero _ hz]
    rfl
  · intro i j hi hj hne hfi hfj
    exfalso
    apply hfi
    have hz : ∀ n ∈ (beginState seqs).nodes, n.fakesize_ = 0 := by
      intro n hn
      simp only [beginState, List.mem_map] at hn
      obtain ⟨l, -, rfl⟩ := hn
      rfl
    exact hz _ (List.getElem_mem hi)

theorem stateInv_step {α : Type} (t : Nat) (s : MPState α) (h : StateInv t s) :
    StateInv (t + 1) (stepState s).1 := by
  have CF := do_increment_chain s.gcounter s.nodes t [] s.total h.inv
    (by simpa using h.total_eq) (by simp)
  have hnodes : (stepState s).1.nodes = (do_increment s.nodes s.total s.gcounter).1 := rfl
  have htot : (stepState s).1.total = (do_increment s.nodes s.total s.gcounter).2.1 := rfl
  have hg : (stepState s).1.gcounter = (do_increment s.nodes s.total s.gcounter).2.2.1 := rfl
  refine ⟨?_, ?_, ?_, ?_⟩
  · rw [hnodes]
    exact CF.inv
  · rw [hg, do_increment_gcounter, h.gcounter_eq]
  · rw [htot, hnodes, CF.tot_eq]
    have := prodOpt_perm CF.pads_perm
    rw [this]
    simp
  · intro i j hi0 hj0 hne hfi0 hfj0
    have hi : i < (do_increment s.nodes s.total s.gcounter).1.length := hi0
    have hj : j < (do_increment s.nodes s.total s.gcounter).1.length := hj0
    have hfi : ((do_increment s.nodes s.total s.gcounter).1[i]).fakesize_ ≠ 0 := hfi0
    have hfj : ((do_increment s.nodes s.total s.gcounter).1[j]).fakesize_ ≠ 0 := hfj0
    show Nat.Coprime ((do_increment s.nodes s.total s.gcounter).1[i]).fakesize_
      ((do_increment s.nodes s.total s.gcounter).1[j]).fakesize_
    have hleni : i < s.nodes.length := by
      rw [← CF.len_eq]
      exact hi
    have hlenj : j < s.nodes.length := by
      rw [← CF.len_eq]
      exact hj
    -- generic fact: an old pad is coprime to a newly assigned pad
    have hBpos : ∀ k (hk : k < s.nodes.length)
        (hk2 : k < (do_increment s.nodes s.total s.gcounter).1.length),
        ∀ y ∈ [] ++ discoveredPads s.nodes ++
          newlyPads (s.nodes.take k) ((do_increment s.nodes s.total s.gcounter).1.take k), 0 < y := by
      intro k hk hk2 y hy
      simp only [List.nil_append] at hy
      rcases List.mem_append.mp hy with hmem | hmem
      · exact discoveredPads_pos s.nodes h.inv y hmem
      · exact mem_newlyPads_pos _ _ y hmem
    have key : ∀ a b (ha : a < s.nodes.length) (hb : b < s.nodes.length)
        (ha2 : a < (do_increment s.nodes s.total s.gcounter).1.length)
        (hb2 : b < (do_increment s.nodes s.total s.gcounter).1.length),
        (s.nodes[b]).fakesize_ = 0 →
        ((do_increment s.nodes s.total s.gcounter).1[a]).fakesize_ ≠ 0 →
        ((do_increment s.nodes s.total s.gcounter).1[b]).fakesize_ ≠ 0 →
        ((do_increment s.nodes s.total s.gcounter).1[a]).fakesize_ ∈
          [] ++ discoveredPads s.nodes ++
            newlyPads (s.nodes.take b) ((do_increment s.nodes s.total s.gcounter).1.take b) →
        Nat.Coprime ((do_increment s.nodes s.total s.gcounter).1[b]).fakesize_
          ((do_increment s.nodes s.total s.gcounter).1[a]).fakesize_ := by
      intro a b ha hb ha2 hb2 hb0 hfa hfb hmem
      have hLb : (s.nodes[b]).seq.length = t + 1 := by
        by_contra hc
        exact hfb (CF.stay b hb hb2 hb0 hc).2
      have e := CF.newly_eq b hb hb2 hb0 hLb
      rw [e.2]
      exact coprime_padOf_of_mem _ _ _ hmem (hBpos b hb hb2)
    by_cases hoi : (s.nodes[i]).fakesize_ ≠ 0
    · by_cases hoj : (s.nodes[j]).fakesize_ ≠ 0
      · -- both previously discovered: reduce to the old invariant
        rw [(CF.pres i hleni hi hoi).2, (CF.pres j hlenj hj hoj).2]
        exact h.coprime i j hleni hlenj hne hoi hoj
      · -- i old, j new
        push_neg at hoj
        have hmem : ((do_increment s.nodes s.total s.gcounter).1[i]).fakesize_ ∈
            [] ++ discoveredPads s.nodes ++
              newlyPads (s.nodes.take j) ((do_increment s.nodes s.total s.gcounter).1.take j) := by
          rw [(CF.pres i hleni hi hoi).2]
          simp only [List.nil_append]
          exact List.mem_append_left _ (getElem_mem_discoveredPads s.nodes i hleni hoi)
        exact (key i j hleni hlenj hi hj hoj hfi hfj hmem).symm
    · push_neg at hoi
      by_cases hoj : (s.nodes[j]).fakesize_ ≠ 0
      · -- j old, i new
        have hmem : ((do_increment s.nodes s.total s.gcounter).1[j]).fakesize_ ∈
            [] ++ discoveredPads s.nodes ++
              newlyPads (s.nodes.take i) ((do_increment s.nodes s.total s.gcounter).1.take i) := by
          rw [(CF.pres j hlenj hj hoj).2]
          simp only [List.nil_append]
          exact List.mem_append_left _ (getElem_mem_discoveredPads s.nodes j hlenj hoj)
        exact key j i hlenj hleni hj hi hoi hfj hfi hmem
      · -- both new: the later one in chain order saw the earlier one's pad
        push_neg at hoj
        rcases Nat.lt_or_ge i j with hij | hij
        · have hmem : ((do_increment s.nodes s.total s.gcounter).1[i]).fakesize_ ∈
              [] ++ discoveredPads s.nodes ++
                newlyPads (s.nodes.take j) ((do_increment s.nodes s.total s.gcounter).1.take j) := by
            simp only [List.nil_append]
            apply List.mem_append_right
            have h1 : i < (s.nodes.take j).length := by
              simp
              omega
            have h2 : i < ((do_increment s.nodes s.total s.gcounter).1.take j).length := by
              simp
              omega
            have e1 : ((s.nodes.take j)[i]).fakesize_ = 0 := by
              rw [List.getElem_take]
              exact hoi
            have e2 : (((do_increment s.nodes s.total s.gcounter).1.take j)[i]).fakesize_ ≠ 0 := by
              rw [List.getElem_take]
              exact hfi
            have := mem_newlyPads_of _ _ i h1 h2 e1 e2
            rw [List.getElem_take] at this
            exact this
          exact (key i j hleni hlenj hi hj hoj hfi hfj hmem).symm
        · have hij2 : j < i := by omega
          have hmem : ((do_increment s.nodes s.total s.gcounter).1[j]).fakesize_ ∈
              [] ++ discoveredPads s.nodes ++
                newlyPads (s.nodes.take i) ((do_increment s.nodes s.total s.gcounter).1.take i) := by
            simp only [List.nil_append]
            apply List.mem_append_right
            have h1 : j < (s.nodes.take i).length := by
              simp
              omega
            have h2 : j < ((do_increment s.nodes s.total s.gcounter).1.take i).length := by
              simp
              omega
            have e1 : ((s.nodes.take i)[j]).fakesize_ = 0 := by
              rw [List.getElem_take]
              exact hoj
            have e2 : (((do_increment s.nodes s.total s.gcounter).1.take i)[j]).fakesize_ ≠ 0 := by
              rw [List.getElem_take]
              exact hfj
            have := mem_newlyPads_of _ _ j h1 h2 e1 e2
            rw [List.getElem_take] at this
            exact this
          exact key j i hlenj hleni hj hi hoi hfj hfi hmem

theorem stateInv_reach {α : Type} (seqs : List (List α)) :
    ∀ t, StateInv t (reach seqs t)
  | 0 => stateInv_begin seqs
  | t + 1 => stateInv_step t (reach seqs t) (stateInv_reach seqs t)

/-- `ChainFacts` instantiated at a reachable state. -/
theorem reach_chainFacts {α : Type} (seqs : List (List α)) (t : Nat) :
    ChainFacts t (reach seqs t).nodes []
      (do_increment (reach seqs t).nodes (reach seqs t).total (reach seqs t).gcounter) := by
  have h := stateInv_reach seqs t
  exact do_increment_chain _ _ t [] _ h.inv (by simpa using h.total_eq) (by simp)

theorem reach_succ_nodes {α : Type} (seqs : List (List α)) (t : Nat) :
    (reach seqs (t + 1)).nodes =
      (do_increment (reach seqs t).nodes (reach seqs t).total (reach seqs t).gcounter).1 := rfl

/-- Once discovered, a node's `size_` and `fakesize_` never change. -/
theorem reach_fix {α : Type} (seqs : List (List α)) (t : Nat) :
    ∀ (t2 : Nat), t ≤ t2 →
      ∀ (i : Nat) (hi : i < (reach seqs t).nodes.length)
        (hi2 : i < (reach seqs t2).nodes.length),
        ((reach seqs t).nodes[i]).fakesize_ ≠ 0 →
        ((reach seqs t2).nodes[i]).size_ = ((reach seqs t).nodes[i]).size_ ∧
          ((reach seqs t2).nodes[i]).fakesize_ = ((reach seqs t).nodes[i]).fakesize_ := by
  intro t2
  induction t2 with
  | zero =>
    intro h i hi hi2 hf
    have : t = 0 := by omega
    subst this
    exact ⟨rfl, rfl⟩
  | succ t2 ih =>
    intro h i hi hi2 hf
    rcases Nat.lt_or_ge t (t2 + 1) with hlt | hge
    · have ht2 : t ≤ t2 := by omega
      have hi3 : i < (reach seqs t2).nodes.length := by
        rw [reach_len] at hi2 ⊢
        exact hi2
      have prev := ih ht2 i hi hi3 hf
      have hf2 : ((reach seqs t2).nodes[i]).fakesize_ ≠ 0 := by
        rw [prev.2]
        exact hf
      have CF := reach_chainFacts seqs t2
      have hi4 : i < (do_increment (reach seqs t2).nodes (reach seqs t2).total
          (reach seqs t2).gcounter).1.length := hi2
      have step := CF.pres i hi3 hi4 hf2
      constructor
      · rw [← prev.1]
        exact step.1
      · rw [← prev.2]
        exact step.2
    · have : t = t2 + 1 := by omega
      subst this
      exact ⟨rfl, rfl⟩

/-- Discovery timing: a node with a nonempty container is discovered exactly
from step `length` on. -/
theorem reach_discovered_iff {α : Type} (seqs : List (List α)) (t i : Nat)
    (hi : i < (reach seqs t).nodes.length) :
    ((reach seqs t).nodes[i]).fakesize_ ≠ 0 ↔
      (1 ≤ ((reach seqs t).nodes[i]).seq.length ∧ ((reach seqs t).nodes[i]).seq.length ≤ t) :=
  NodeInv.discovered_iff ((stateInv_reach seqs t).inv _ (List.getElem_mem hi))

/-- The largest true length among the inputs. -/
def maxLen {α : Type} (seqs : List (List α)) : Nat :=
  (seqs.map List.length).foldr max 0

theorem le_foldr_max : ∀ (l : List Nat) (x : Nat), x ∈ l → x ≤ l.foldr max 0
  | [], x, h => by simp at h
  | a :: l, x, h => by
    rcases List.mem_cons.mp h with rfl | h2
    · exact le_max_left _ _
    · exact le_trans (le_foldr_max l x h2) (le_max_right _ _)

theorem foldr_max_le : ∀ (l : List Nat) (c : Nat), (∀ x ∈ l, x ≤ c) → l.foldr max 0 ≤ c
  | [], c, _ => by simp
  | a :: l, c, h => by
    have h1 := h a (List.mem_cons_self a l)
    have h2 := foldr_max_le l c fun x hx => h x (List.mem_cons_of_mem a hx)
    simp [List.foldr_cons]
    omega

theorem length_le_maxLen {α : Type} (seqs : List (List α)) (l : List α)
    (h : l ∈ seqs) : l.length ≤ maxLen seqs :=
  le_foldr_max _ _ (List.mem_map_of_mem List.length h)

/-- The final padded length of each node, read off after every node has
discovered its length. -/
def finalPads {α : Type} (seqs : List (List α)) : List Nat :=
  (reach seqs (maxLen seqs)).nodes.map (·.fakesize_)

theorem finalPads_length {α : Type} (seqs : List (List α)) :
    (finalPads seqs).length = seqs.length := by
  rw [finalPads, List.length_map, reach_len]

theorem seqs_getElem_pos {α : Type} (seqs : List (List α))
    (hall : ∀ l ∈ seqs, l ≠ []) (i : Nat) (hi : i < seqs.length) :
    1 ≤ (seqs[i]).length := by
  have := hall (seqs[i]) (List.getElem_mem hi)
  have h2 : (seqs[i]).length ≠ 0 := by
    intro hc
    exact this (List.eq_nil_of_length_eq_zero hc)
  omega

theorem getElem_finalPads {α : Type} (seqs : List (List α)) (i : Nat)
    (hi : i < (finalPads seqs).length)
    (hi2 : i < (reach seqs (maxLen seqs)).nodes.length) :
    (finalPads seqs)[i] = ((reach seqs (maxLen seqs)).nodes[i]).fakesize_ := by
  simp only [finalPads, List.getElem_map]

/-- At time `maxLen` every node with a nonempty container is discovered. -/
theorem discovered_at_maxLen {α : Type} (seqs : List (List α))
    (hall : ∀ l ∈ seqs, l ≠ []) (i : Nat)
    (hi : i < (reach seqs (maxLen seqs)).nodes.length) (hi2 : i < seqs.length) :
    ((reach seqs (maxLen seqs)).nodes[i]).fakesize_ ≠ 0 := by
  rw [reach_discovered_iff seqs (maxLen seqs) i hi]
  rw [reach_seq seqs (maxLen seqs) i hi hi2]
  refine ⟨seqs_getElem_pos seqs hall i hi2, ?_⟩
  exact length_le_maxLen seqs _ (List.getElem_mem hi2)

/-- From discovery time on, the node's padded length equals its final value. -/
theorem pads_agree {α : Type} (seqs : List (List α)) (hall : ∀ l ∈ seqs, l ≠ [])
    (u i : Nat) (hi : i < (reach seqs u).nodes.length) (hi2 : i < seqs.length)
    (hif : i < (finalPads seqs).length)
    (him : i < (reach seqs (maxLen seqs)).nodes.length)
    (hdisc : ((reach seqs u).nodes[i]).fakesize_ ≠ 0) :
    ((reach seqs u).nodes[i]).fakesize_ = (finalPads seqs)[i] ∧
      ((reach seqs u).nodes[i]).size_ = ((reach seqs (maxLen seqs)).nodes[i]).size_ := by
  rw [getElem_finalPads seqs i hif him]
  rcases le_or_lt u (maxLen seqs) with hum | hum
  · have := reach_fix seqs u (maxLen seqs) hum i hi him hdisc
    exact ⟨this.2.symm, this.1.symm⟩
  · have hdm := discovered_at_maxLen seqs hall i him hi2
    have := reach_fix seqs (maxLen seqs) u (by omega) i him hi hdm
    exact ⟨this.2, this.1⟩

/-- Full description of a node's state at any time, in terms of the final
padded lengths. -/
theorem reach_node_state {α : Type} (seqs : List (List α))
    (hall : ∀ l ∈ seqs, l ≠ []) (u i : Nat)
    (hi : i < (reach seqs u).nodes.length) (hi2 : i < seqs.length)
    (hif : i < (finalPads seqs).length)
    (him : i < (reach seqs (maxLen seqs)).nodes.length) :
    (u < (seqs[i]).length →
      ((reach seqs u).nodes[i]).size_ = 0 ∧ ((reach seqs u).nodes[i]).fakesize_ = 0 ∧
      ((reach seqs u).nodes[i]).pos = u ∧ ((reach seqs u).nodes[i]).counter = u) ∧
    ((seqs[i]).length ≤ u →
      ((reach seqs u).nodes[i]).size_ = (seqs[i]).length ∧
      ((reach seqs u).nodes[i]).fakesize_ = (finalPads seqs)[i] ∧
      ((reach seqs u).nodes[i]).counter = u % (finalPads seqs)[i] ∧
      ((reach seqs u).nodes[i]).pos =
        min (((reach seqs u).nodes[i]).counter) ((seqs[i]).length)) := by
  have hInv := (stateInv_reach seqs u).inv _ (List.getElem_mem hi)
  obtain ⟨-, hU, hD⟩ := hInv
  have hseq := reach_seq seqs u i hi hi2
  constructor
  · intro hu
    have := hU (Or.inr (by rw [hseq]; exact hu))
    exact ⟨this.1, this.2.1, this.2.2.1, this.2.2.2⟩
  · intro hu
    have hL1 : 1 ≤ ((reach seqs u).nodes[i]).seq.length := by
      rw [hseq]
      exact seqs_getElem_pos seqs hall i hi2
    have hd := hD hL1 (by rw [hseq]; exact hu)
    have hdisc : ((reach seqs u).nodes[i]).fakesize_ ≠ 0 := by
      have := seqs_getElem_pos seqs hall i hi2
      rw [hseq] at hd
      omega
    have hpa := (pads_agree seqs hall u i hi hi2 hif him hdisc).1
    rw [hseq] at hd
    exact ⟨hd.1, hpa, by rw [← hpa]; exact hd.2.2.1, hd.2.2.2⟩

theorem length_le_finalPads {α : Type} (seqs : List (List α))
    (hall : ∀ l ∈ seqs, l ≠ []) (i : Nat) (hif : i < (finalPads seqs).length)
    (hi2 : i < seqs.length) (him : i < (reach seqs (maxLen seqs)).nodes.length) :
    (seqs[i]).length ≤ (finalPads seqs)[i] := by
  have h := (reach_node_state seqs hall (maxLen seqs) i him hi2 hif him).2
    (length_le_maxLen seqs _ (List.getElem_mem hi2))
  have hInv := (stateInv_reach seqs (maxLen seqs)).inv _ (List.getElem_mem him)
  obtain ⟨-, hU, hD⟩ := hInv
  have hseq := reach_seq seqs (maxLen seqs) i him hi2
  have hd := hD (by rw [hseq]; exact seqs_getElem_pos seqs hall i hi2)
    (by rw [hseq]; exact length_le_maxLen seqs _ (List.getElem_mem hi2))
  rw [hseq] at hd
  rw [← h.2.1]
  exact hd.2.1

theorem finalPads_pos {α : Type} (seqs : List (List α))
    (hall : ∀ l ∈ seqs, l ≠ []) (x : Nat) (hx : x ∈ finalPads seqs) : 0 < x := by
  obtain ⟨i, hi, rfl⟩ := List.mem_iff_getElem.mp hx
  have hi2 : i < seqs.length := by
    rw [finalPads_length] at hi
    exact hi
  have him : i < (reach seqs (maxLen seqs)).nodes.length := by
    rw [reach_len]
    exact hi2
  have := length_le_finalPads seqs hall i hi hi2 him
  have := seqs_getElem_pos seqs hall i hi2
  omega

theorem finalPads_pairwise_coprime {α : Type} (seqs : List (List α))
    (hall : ∀ l ∈ seqs, l ≠ []) :
    List.Pairwise Nat.Coprime (finalPads seqs) := by
  rw [List.pairwise_iff_getElem]
  intro i j hi hj hij
  have hi2 : i < seqs.length := by rw [finalPads_length] at hi; exact hi
  have hj2 : j < seqs.length := by rw [finalPads_length] at hj; exact hj
  have him : i < (reach seqs (maxLen seqs)).nodes.length := by rw [reach_len]; exact hi2
  have hjm : j < (reach seqs (maxLen seqs)).nodes.length := by rw [reach_len]; exact hj2
  rw [getElem_finalPads seqs i hi him, getElem_finalPads seqs j hj hjm]
  exact (stateInv_reach seqs (maxLen seqs)).coprime i j him hjm (by omega)
    (discovered_at_maxLen seqs hall i him hi2)
    (discovered_at_maxLen seqs hall j hjm hj2)

theorem discoveredPads_eq_map {α : Type} :
    ∀ (ns : List (MPNode α)), (∀ n ∈ ns, n.fakesize_ ≠ 0) →
      discoveredPads ns = ns.map (·.fakesize_)
  | [], _ => rfl
  | n :: rest, h => by
    rw [discoveredPads, if_pos (h n (List.mem_cons_self n rest)), List.map_cons]
    rw [discoveredPads_eq_map rest fun m hm => h m (List.mem_cons_of_mem n hm)]

theorem all_discovered_iff {α : Type} (seqs : List (List α))
    (hall : ∀ l ∈ seqs, l ≠ []) (t : Nat) :
    all_sizes_discovered (reach seqs t).nodes = true ↔ maxLen seqs ≤ t := by
  rw [all_sizes_discovered, List.all_eq_true]
  constructor
  · intro h
    apply foldr_max_le
    intro x hx
    obtain ⟨l, hl, rfl⟩ := List.mem_map.mp hx
    obtain ⟨i, hi2, rfl⟩ := List.mem_iff_getElem.mp hl
    have hi : i < (reach seqs t).nodes.length := by rw [reach_len]; exact hi2
    have := h _ (List.getElem_mem hi)
    rw [decide_eq_true_eq] at this
    have hd := (reach_discovered_iff seqs t i hi).mp this
    rw [reach_seq seqs t i hi hi2] at hd
    exact hd.2
  · intro h n hn
    rw [decide_eq_true_eq]
    obtain ⟨i, hi, rfl⟩ := List.mem_iff_getElem.mp hn
    have hi2 : i < seqs.length := by rw [reach_len] at hi; exact hi
    rw [reach_discovered_iff seqs t i hi, reach_seq seqs t i hi hi2]
    refine ⟨seqs_getElem_pos seqs hall i hi2, ?_⟩
    have := length_le_maxLen seqs _ (List.getElem_mem hi2)
    omega

theorem reach_total_final {α : Type} (seqs : List (List α)) (hne : seqs ≠ [])
    (hall : ∀ l ∈ seqs, l ≠ []) (t : Nat) (ht : maxLen seqs ≤ t) :
    (reach seqs t).total = (finalPads seqs).prod := by
  have hSI := stateInv_reach seqs t
  rw [hSI.total_eq]
  have hd : ∀ n ∈ (reach seqs t).nodes, n.fakesize_ ≠ 0 := by
    have := (all_discovered_iff seqs hall t).mpr ht
    rw [all_sizes_discovered, List.all_eq_true] at this
    intro n hn
    have := this n hn
    rwa [decide_eq_true_eq] at this
  rw [discoveredPads_eq_map _ hd]
  have hmapeq : (reach seqs t).nodes.map (·.fakesize_) = finalPads seqs := by
    apply List.ext_getElem
    · rw [List.length_map, reach_len, finalPads_length]
    · intro i h1 h2
      rw [List.getElem_map]
      have hi : i < (reach seqs t).nodes.length := by
        rw [List.length_map] at h1
        exact h1
      have hi2 : i < seqs.length := by rw [reach_len] at hi; exact hi
      have him : i < (reach seqs (maxLen seqs)).nodes.length := by
        rw [reach_len]
        exact hi2
      exact (pads_agree seqs hall t i hi hi2 h2 him (hd _ (List.getElem_mem hi))).1
  rw [hmapeq]
  apply prodOpt_ne_nil
  intro hc
  have := finalPads_length seqs
  rw [hc] at this
  simp at this
  exact hne (List.eq_nil_of_length_eq_zero this.symm)

theorem maxLen_le_prod {α : Type} (seqs : List (List α))
    (hall : ∀ l ∈ seqs, l ≠ []) : maxLen seqs ≤ (finalPads seqs).prod := by
  apply foldr_max_le
  intro x hx
  obtain ⟨l, hl, rfl⟩ := List.mem_map.mp hx
  obtain ⟨i, hi2, rfl⟩ := List.mem_iff_getElem.mp hl
  have hif : i < (finalPads seqs).length := by rw [finalPads_length]; exact hi2
  have him : i < (reach seqs (maxLen seqs)).nodes.length := by rw [reach_len]; exact hi2
  calc (seqs[i]).length ≤ (finalPads seqs)[i] :=
        length_le_finalPads seqs hall i hif hi2 him
    _ ≤ (finalPads seqs).prod :=
        List.single_le_prod (fun x hx => finalPads_pos seqs hall x hx) _
          (List.getElem_mem hif)

/-- `u` is a real (non-padding) schedule position: every node's residue
falls inside its true length. -/
def realAtB {α : Type} (seqs : List (List α)) (u : Nat) : Bool :=
  ((finalPads seqs).zip (seqs.map List.length)).all fun pr => decide (u % pr.1 < pr.2)

theorem realAtB_iff {α : Type} (seqs : List (List α)) (u : Nat) :
    realAtB seqs u = true ↔
      ∀ i (h1 : i < seqs.length) (h2 : i < (finalPads seqs).length),
        u % (finalPads seqs)[i] < (seqs[i]).length := by
  rw [realAtB, List.all_eq_true]
  constructor
  · intro h i h1 h2
    have hz : i < ((finalPads seqs).zip (seqs.map List.length)).length := by
      rw [List.length_zip, List.length_map]
      omega
    have := h _ (List.getElem_mem hz)
    rw [List.getElem_zip, decide_eq_true_eq] at this
    simpa using this
  · intro h pr hpr
    obtain ⟨i, hi, rfl⟩ := List.mem_iff_getElem.mp hpr
    rw [List.getElem_zip, decide_eq_true_eq]
    rw [List.length_zip, List.length_map] at hi
    have h1 : i < seqs.length := by omega
    have h2 : i < (finalPads seqs).length := by omega
    have := h i h1 h2
    simpa using this

theorem realAtB_zero {α : Type} (seqs : List (List α))
    (hall : ∀ l ∈ seqs, l ≠ []) : realAtB seqs 0 = true := by
  rw [realAtB_iff]
  intro i h1 h2
  have := seqs_getElem_pos seqs hall i h1
  have hz : 0 % (finalPads seqs)[i] = 0 := Nat.zero_mod _
  omega

theorem realAtB_prod {α : Type} (seqs : List (List α))
    (hall : ∀ l ∈ seqs, l ≠ []) : realAtB seqs ((finalPads seqs).prod) = true := by
  rw [realAtB_iff]
  intro i h1 h2
  have hdvd : (finalPads seqs)[i] ∣ (finalPads seqs).prod :=
    List.dvd_prod (List.getElem_mem h2)
  rw [Nat.mod_eq_zero_of_dvd hdvd]
  exact seqs_getElem_pos seqs hall i h1

/-- `is_fake` at a reachable state, in terms of the final schedule. -/
theorem isFake_reach_iff {α : Type} (seqs : List (List α))
    (hall : ∀ l ∈ seqs, l ≠ []) (u i : Nat)
    (hi : i < (reach seqs u).nodes.length) (hi2 : i < seqs.length)
    (hif : i < (finalPads seqs).length)
    (him : i < (reach seqs (maxLen seqs)).nodes.length) :
    is_fake ((reach seqs u).nodes[i]) = true ↔
      (seqs[i]).length ≤ u % (finalPads seqs)[i] := by
  have hns := reach_node_state seqs hall u i hi hi2 hif him
  have hLpos := seqs_getElem_pos seqs hall i hi2
  have hpadL : (seqs[i]).length ≤ (finalPads seqs)[i] :=
    length_le_finalPads seqs hall i hif hi2 him
  rw [is_fake_iff]
  rcases Nat.lt_or_ge u ((seqs[i]).length) with hu | hu
  · obtain ⟨hs, hf, hp, hc⟩ := hns.1 hu
    have hmod : u % (finalPads seqs)[i] = u := Nat.mod_eq_of_lt (by omega)
    constructor
    · intro hcon
      exact absurd hf hcon.1
    · intro hcon
      omega
  · obtain ⟨hs, hf, hc, hp⟩ := hns.2 hu
    have hppos : 0 < (finalPads seqs)[i] := by omega
    have hmlt : u % (finalPads seqs)[i] < (finalPads seqs)[i] := Nat.mod_lt _ hppos
    constructor
    · intro hcon
      rw [hs, hc] at hcon
      exact hcon.2.1
    · intro hcon
      refine ⟨by omega, by omega, by omega⟩

/-- The Boolean returned by a whole-chain `do_increment` step from a
reachable state detects exactly the padding positions of the schedule. -/
theorem stepFlag_iff {α : Type} (seqs : List (List α))
    (hall : ∀ l ∈ seqs, l ≠ []) (u : Nat) :
    (stepState (reach seqs u)).2 = true ↔ realAtB seqs (u + 1) = false := by
  have CF := reach_chainFacts seqs u
  have hflag : (stepState (reach seqs u)).2 =
      (reach seqs (u + 1)).nodes.any is_fake := CF.flag_eq
  rw [hflag, List.any_eq_true]
  constructor
  · intro ⟨n, hn, hfk⟩
    obtain ⟨i, hi, rfl⟩ := List.mem_iff_getElem.mp hn
    have hi2 : i < seqs.length := by rw [reach_len] at hi; exact hi
    have hif : i < (finalPads seqs).length := by rw [finalPads_length]; exact hi2
    have him : i < (reach seqs (maxLen seqs)).nodes.length := by rw [reach_len]; exact hi2
    have := (isFake_reach_iff seqs hall (u + 1) i hi hi2 hif him).mp hfk
    cases hre : realAtB seqs (u + 1)
    · rfl
    · exfalso
      have := (realAtB_iff seqs (u + 1)).mp hre i hi2 hif
      omega
  · intro hre
    by_contra hc
    push_neg at hc
    have hfa : realAtB seqs (u + 1) = true := by
      rw [realAtB_iff]
      intro i h1 h2
      have hi : i < (reach seqs (u + 1)).nodes.length := by rw [reach_len]; exact h1
      have him : i < (reach seqs (maxLen seqs)).nodes.length := by rw [reach_len]; exact h1
      have := hc ((reach seqs (u + 1)).nodes[i]) (List.getElem_mem hi)
      have hiff := isFake_reach_iff seqs hall (u + 1) i hi h1 h2 him
      have : is_fake ((reach seqs (u + 1)).nodes[i]) = false := by
        cases hx : is_fake ((reach seqs (u + 1)).nodes[i])
        · rfl
        · exact absurd hx this
      have hnot : ¬ (seqs[i]).length ≤ (u + 1) % (finalPads seqs)[i] := by
        intro hcon
        have := hiff.mpr hcon
        rw [this] at *
        simp_all
      omega
    rw [hfa] at hre
    simp at hre

/-- The `operator++` termination test fires exactly when the terminal
counter reaches the full cycle length. -/
theorem opInc_end_cond {α : Type} (seqs : List (List α)) (hne : seqs ≠ [])
    (hall : ∀ l ∈ seqs, l ≠ []) (u : Nat) :
    ((all_sizes_discovered (reach seqs (u + 1)).nodes = true ∧
      (reach seqs (u + 1)).gcounter = (reach seqs (u + 1)).total) ↔
      u + 1 = (finalPads seqs).prod) := by
  constructor
  · intro ⟨h1, h2⟩
    have hm := (all_discovered_iff seqs hall (u + 1)).mp h1
    rw [reach_gcounter, reach_total_final seqs hne hall (u + 1) hm] at h2
    exact h2
  · intro h
    have hm : maxLen seqs ≤ u + 1 := by
      have := maxLen_le_prod seqs hall
      omega
    refine ⟨(all_discovered_iff seqs hall (u + 1)).mpr hm, ?_⟩
    rw [reach_gcounter, reach_total_final seqs hne hall (u + 1) hm]
    exact h

/-- At a real schedule position the cursor differs from `end()` at every
node, so `operator!=` holds. -/
theorem cursorNe_reach_real {α : Type} (seqs : List (List α)) (hne : seqs ≠ [])
    (hall : ∀ l ∈ seqs, l ≠ []) (u : Nat) (hreal : realAtB seqs u = true) :
    cursorNe (reach seqs u).nodes (endNodesOf (reach seqs u).nodes) = true := by
  have hlen : (reach seqs u).nodes.length = (endNodesOf (reach seqs u).nodes).length := by
    rw [endNodesOf, List.length_map]
  have hnn : (reach seqs u).nodes ≠ [] := by
    intro hc
    have := reach_len seqs u
    rw [hc] at this
    exact hne (List.eq_nil_of_length_eq_zero this.symm)
  rw [cursorNe_iff _ _ hlen hnn]
  intro i h1 h2
  have hi2 : i < seqs.length := by rw [reach_len] at h1; exact h1
  have hif : i < (finalPads seqs).length := by rw [finalPads_length]; exact hi2
  have him : i < (reach seqs (maxLen seqs)).nodes.length := by rw [reach_len]; exact hi2
  have hend : ((endNodesOf (reach seqs u).nodes)[i]).pos =
      ((reach seqs u).nodes[i]).seq.length := by
    simp only [endNodesOf, List.getElem_map]
  rw [hend, reach_seq seqs u i h1 hi2]
  have hns := reach_node_state seqs hall u i h1 hi2 hif him
  have hLpos := seqs_getElem_pos seqs hall i hi2
  rcases Nat.lt_or_ge u ((seqs[i]).length) with hu | hu
  · obtain ⟨-, -, hp, -⟩ := hns.1 hu
    omega
  · obtain ⟨-, -, hc, hp⟩ := hns.2 hu
    have hrlt := (realAtB_iff seqs u).mp hreal i hi2 hif
    rw [hp, hc]
    have : min (u % (finalPads seqs)[i]) ((seqs[i]).length) = u % (finalPads seqs)[i] :=
      Nat.min_eq_left (by omega)
    omega

/-- After the cursor is assigned `end()`, `operator!=` against `end()`
fails. -/
theorem cursorNe_assignEnd {α : Type} (s : MPState α) (hnn : s.nodes ≠ []) :
    cursorNe (assignEnd s).nodes (endNodesOf (assignEnd s).nodes) = false := by
  have hlen : (assignEnd s).nodes.length = (endNodesOf (assignEnd s).nodes).length := by
    rw [endNodesOf, List.length_map]
  have hnn2 : (assignEnd s).nodes ≠ [] := by
    intro hc
    have : (assignEnd s).nodes.length = 0 := by rw [hc]; rfl
    rw [assignEnd] at this
    simp only [List.length_map] at this
    exact hnn (List.eq_nil_of_length_eq_zero this)
  have h0 : 0 < (assignEnd s).nodes.length := List.length_pos.mpr hnn2
  rw [cursorNe_eq_false_iff _ _ hlen hnn2]
  intro hforall
  apply hforall 0 h0 (by omega)
  have e1 : ((assignEnd s).nodes[0]).pos = ((assignEnd s).nodes[0]).seq.length := by
    simp only [assignEnd, List.getElem_map]
  have e2 : ((endNodesOf (assignEnd s).nodes)[0]).pos =
      ((assignEnd s).nodes[0]).seq.length := by
    simp only [endNodesOf, List.getElem_map]
  rw [e1, e2]

/-- What one `operator++` call does, from any schedule position: it steps to
the next real position, or to the assigned-end cursor when the cycle ends
first. -/
theorem opInc_reach {α : Type} (seqs : List (List α)) (hne : seqs ≠ [])
    (hall : ∀ l ∈ seqs, l ≠ []) :
    ∀ (d t : Nat), t + d + 1 ≤ (finalPads seqs).prod →
      (t + d + 1 < (finalPads seqs).prod → realAtB seqs (t + d + 1) = true) →
      (∀ u, t < u → u < t + d + 1 → realAtB seqs u = false) →
      ∀ fuel, d + 1 ≤ fuel →
        opInc fuel (reach seqs t) =
          if t + d + 1 < (finalPads seqs).prod then some (reach seqs (t + d + 1))
          else some (assignEnd (reach seqs (t + d + 1))) := by
  intro d
  induction d with
  | zero =>
    intro t hle hreal hno fuel hfuel
    cases fuel with
    | zero => omega
    | succ f =>
      rw [opInc]
      have hR : (stepState (reach seqs t)).1 = reach seqs (t + 1) := rfl
      rcases Nat.lt_or_ge (t + 0 + 1) ((finalPads seqs).prod) with hlt | hge
      · rw [if_pos hlt]
        have hcond : ¬ (all_sizes_discovered (stepState (reach seqs t)).1.nodes = true ∧
            (stepState (reach seqs t)).1.gcounter = (stepState (reach seqs t)).1.total) := by
          rw [hR]
          rw [opInc_end_cond seqs hne hall t]
          omega
        rw [if_neg hcond]
        have hfl : (stepState (reach seqs t)).2 = false := by
          cases hx : (stepState (reach seqs t)).2
          · rfl
          · exfalso
            have := (stepFlag_iff seqs hall t).mp hx
            have h2 := hreal hlt
            rw [show t + 0 + 1 = t + 1 by omega] at h2
            rw [h2] at this
            simp at this
        rw [hfl]
        simp only [Bool.false_eq_true, if_false]
        rw [hR]
      · have heq : t + 1 = (finalPads seqs).prod := by omega
        have hcond : (all_sizes_discovered (stepState (reach seqs t)).1.nodes = true ∧
            (stepState (reach seqs t)).1.gcounter = (stepState (reach seqs t)).1.total) := by
          rw [hR]
          rw [opInc_end_cond seqs hne hall t]
          exact heq
        rw [if_pos hcond]
        rw [if_neg (show ¬ (t + 0 + 1 < (finalPads seqs).prod) by omega)]
        rw [hR]
  | succ d ih =>
    intro t hle hreal hno fuel hfuel
    cases fuel with
    | zero => omega
    | succ f =>
      rw [opInc]
      have hR : (stepState (reach seqs t)).1 = reach seqs (t + 1) := rfl
      have ht1 : t + 1 < (finalPads seqs).prod := by omega
      have hcond : ¬ (all_sizes_discovered (stepState (reach seqs t)).1.nodes = true ∧
          (stepState (reach seqs t)).1.gcounter = (stepState (reach seqs t)).1.total) := by
        rw [hR]
        rw [opInc_end_cond seqs hne hall t]
        omega
      rw [if_neg hcond]
      have hfl : (stepState (reach seqs t)).2 = true := by
        have hfalse : realAtB seqs (t + 1) = false := hno (t + 1) (by omega) (by omega)
        cases hx : (stepState (reach seqs t)).2
        · exfalso
          have := (stepFlag_iff seqs hall t).mpr hfalse
          rw [hx] at this
          simp at this
        · rfl
      rw [hfl]
      simp only [if_true]
      rw [hR]
      have := ih (t + 1) (by omega) (by rw [show t + 1 + d + 1 = t + (d + 1) + 1 by omega]; exact hreal)
        (fun u hu1 hu2 => hno u (by omega) (by omega)) f (by omega)
      rw [show t + 1 + d + 1 = t + (d + 1) + 1 by omega] at this
      exact this

theorem filter_range_skip (p : Nat → Bool) :
    ∀ (m a r : Nat), (∀ u, a ≤ u → u < a + m → p u = false) →
      (List.range' a (m + r)).filter p = (List.range' (a + m) r).filter p
  | 0, a, r, h => by simp
  | m + 1, a, r, h => by
    have hr : m + 1 + r = (m + r) + 1 := by omega
    rw [hr, List.range'_succ, List.filter_cons]
    rw [h a (Nat.le_refl a) (by omega)]
    simp only [Bool.false_eq_true, if_false]
    have := filter_range_skip p m (a + 1) r
      (fun u hu1 hu2 => h u (by omega) (by omega))
    rw [this]
    have hx : a + 1 + m = a + (m + 1) := by omega
    rw [hx]

theorem filter_range_cons (p : Nat → Bool) (a k : Nat) (h : p a = true) :
    (List.range' a (k + 1)).filter p = a :: (List.range' (a + 1) k).filter p := by
  rw [List.range'_succ, List.filter_cons, h]
  simp

/-- The driving loop collects the dereferences of exactly the real schedule
positions from the current one up to the full cycle length. -/
theorem collect_reach {α : Type} (seqs : List (List α)) (hne : seqs ≠ [])
    (hall : ∀ l ∈ seqs, l ≠ []) :
    ∀ (k : Nat), ∀ (t : Nat), 1 ≤ k → t + k = (finalPads seqs).prod →
      realAtB seqs t = true → ∀ fuel, k + 1 ≤ fuel →
        collect fuel (reach seqs t) =
          ((List.range' t k).filter (fun u => realAtB seqs u)).map
            (fun u => deref (reach seqs u)) := by
  intro k
  induction k using Nat.strong_induction_on with
  | _ k IH =>
    intro t hk hkP hreal fuel hfuel
    cases fuel with
    | zero => omega
    | succ f =>
      rw [collect]
      rw [if_pos (cursorNe_reach_real seqs hne hall t hreal)]
      have hQex : ∃ d, t + d + 1 = (finalPads seqs).prod ∨
          realAtB seqs (t + d + 1) = true := ⟨k - 1, Or.inl (by omega)⟩
      have hkey : ∃ d0, (t + d0 + 1 = (finalPads seqs).prod ∨
          realAtB seqs (t + d0 + 1) = true) ∧ d0 ≤ k - 1 ∧
          ∀ u, t < u → u < t + d0 + 1 → realAtB seqs u = false := by
        refine ⟨Nat.find hQex, Nat.find_spec hQex,
          Nat.find_min' hQex (Or.inl (by omega)), ?_⟩
        intro u hu1 hu2
        have hd2 : u - t - 1 < Nat.find hQex := by omega
        have hm := Nat.find_min hQex hd2
        push_neg at hm
        have harg : t + (u - t - 1) + 1 = u := by omega
        rw [harg] at hm
        cases hx : realAtB seqs u
        · rfl
        · exact absurd hx hm.2
      obtain ⟨d0, hQ, hdk, hno⟩ := hkey
      have hle : t + d0 + 1 ≤ (finalPads seqs).prod := by omega
      have hrealNext : t + d0 + 1 < (finalPads seqs).prod →
          realAtB seqs (t + d0 + 1) = true := by
        intro hlt
        rcases hQ with h | h
        · omega
        · exact h
      have hop := opInc_reach seqs hne hall d0 t hle hrealNext hno f (by omega)
      rcases Nat.lt_or_ge (t + d0 + 1) ((finalPads seqs).prod) with hlt | hge
      · rw [hop, if_pos hlt]
        show deref (reach seqs t) ::
          collect f (reach seqs (t + d0 + 1)) = _
        have hk2 : 1 ≤ (finalPads seqs).prod - (t + d0 + 1) := by omega
        have ht2 : (t + d0 + 1) +
            ((finalPads seqs).prod - (t + d0 + 1)) = (finalPads seqs).prod := by
          omega
        have hrec := IH ((finalPads seqs).prod - (t + d0 + 1)) (by omega)
          (t + d0 + 1) hk2 ht2 (hrealNext hlt) f (by omega)
        rw [hrec]
        have hsplit : (List.range' t k).filter (fun u => realAtB seqs u) =
            t :: (List.range' (t + d0 + 1)
              ((finalPads seqs).prod - (t + d0 + 1))).filter
              (fun u => realAtB seqs u) := by
          have hk1 : k = (k - 1) + 1 := by omega
          rw [hk1, filter_range_cons _ _ _ hreal]
          congr 1
          have hsk : k - 1 = d0 +
              ((finalPads seqs).prod - (t + d0 + 1)) := by omega
          rw [hsk]
          have := filter_range_skip (fun u => realAtB seqs u) (d0) (t + 1)
            ((finalPads seqs).prod - (t + d0 + 1))
            (fun u hu1 hu2 => hno u (by omega) (by omega))
          have hx2 : t + 1 + d0 = t + d0 + 1 := by omega
          rw [this, hx2]
        rw [hsplit]
        rfl
      · have heq : t + d0 + 1 = (finalPads seqs).prod := by omega
        rw [hop, if_neg (by omega)]
        show deref (reach seqs t) ::
          collect f (assignEnd (reach seqs (t + d0 + 1))) = _
        have hnn : (reach seqs (t + d0 + 1)).nodes ≠ [] := by
          intro hc
          have := reach_len seqs (t + d0 + 1)
          rw [hc] at this
          exact hne (List.eq_nil_of_length_eq_zero this.symm)
        have hend := cursorNe_assignEnd (reach seqs (t + d0 + 1)) hnn
        have hcol : collect f (assignEnd (reach seqs (t + d0 + 1))) = [] := by
          cases f with
          | zero => rfl
          | succ f2 =>
            rw [collect]
            rw [if_neg (by rw [hend]; simp)]
        rw [hcol]
        have hsingle : (List.range' t k).filter (fun u => realAtB seqs u) = [t] := by
          have hk1 : k = (k - 1) + 1 := by omega
          rw [hk1, filter_range_cons _ _ _ hreal]
          have hsk : k - 1 = d0 + 0 := by omega
          rw [hsk]
          have := filter_range_skip (fun u => realAtB seqs u) (d0) (t + 1) 0
            (fun u hu1 hu2 => hno u (by omega) (by omega))
          rw [this]
          simp
        rw [hsingle]
        rfl


/-! ## Dereference at a real step -/

/-- At a real step `u`, `operator*` reads position `u mod p_i` of each
container. -/
theorem deref_reach_real {α : Type} (seqs : List (List α))
    (hall : ∀ l ∈ seqs, l ≠ []) (u : Nat) (hreal : realAtB seqs u = true) :
    deref (reach seqs u) =
      List.zipWith (fun (l : List α) (p : Nat) => l[u % p]?) seqs (finalPads seqs) := by
  apply List.ext_getElem
  · simp only [deref, List.length_map, reach_len, List.length_zipWith,
      finalPads_length, Nat.min_self]
  · intro i h1 h2
    have hi2 : i < seqs.length := by
      simpa only [deref, List.length_map, reach_len] using h1
    have hi : i < (reach seqs u).nodes.length := by
      rw [reach_len]; exact hi2
    have hif : i < (finalPads seqs).length := by
      rw [finalPads_length]; exact hi2
    have him : i < (reach seqs (maxLen seqs)).nodes.length := by
      rw [reach_len]; exact hi2
    have hseq := reach_seq seqs u i hi hi2
    have hst := reach_node_state seqs hall u i hi hi2 hif him
    have hRHS : (List.zipWith (fun (l : List α) (p : Nat) => l[u % p]?) seqs
        (finalPads seqs))[i] = (seqs[i])[u % (finalPads seqs)[i]]? := by
      rw [List.getElem_zipWith]
    rw [hRHS]
    have hLHS : (deref (reach seqs u))[i] =
        ((reach seqs u).nodes[i]).seq[((reach seqs u).nodes[i]).pos]? := by
      simp only [deref, List.getElem_map]
    rw [hLHS, hseq]
    rcases Nat.lt_or_ge u ((seqs[i]).length) with hu | hu
    · have h0 := hst.1 hu
      rw [h0.2.2.1]
      have hle := length_le_finalPads seqs hall i hif hi2 him
      have : u % (finalPads seqs)[i] = u := Nat.mod_eq_of_lt (by omega)
      rw [this]
    · have h0 := hst.2 hu
      have hr := (realAtB_iff seqs u).mp hreal i hi2 hif
      rw [h0.2.2.2, h0.2.2.1]
      have : min (u % (finalPads seqs)[i]) ((seqs[i]).length) =
          u % (finalPads seqs)[i] := by omega
      rw [this]

/-! ## The abstract schedule -/

/-- Whether step `u` is a real (non-fake) step for pads `ps` and true
lengths `Ls`. -/
def schedOK (ps Ls : List Nat) (u : Nat) : Bool :=
  (ps.zip Ls).all fun pr => decide (u % pr.1 < pr.2)

theorem realAtB_eq_schedOK {α : Type} (seqs : List (List α)) (u : Nat) :
    realAtB seqs u = schedOK (finalPads seqs) (seqs.map List.length) u := rfl

theorem schedOK_iff (ps Ls : List Nat) (u : Nat) :
    schedOK ps Ls u = true ↔
      ∀ i (h1 : i < ps.length) (h2 : i < Ls.length), u % ps[i] < Ls[i] := by
  rw [schedOK, List.all_eq_true]
  constructor
  · intro h i h1 h2
    have hz : i < (ps.zip Ls).length := by
      rw [List.length_zip]
      omega
    have := h _ (List.getElem_mem hz)
    rw [List.getElem_zip, decide_eq_true_eq] at this
    exact this
  · intro h pr hpr
    obtain ⟨i, hi, rfl⟩ := List.mem_iff_getElem.mp hpr
    rw [List.getElem_zip, decide_eq_true_eq]
    rw [List.length_zip] at hi
    exact h i (by omega) (by omega)

/-! ## All index tuples -/

/-- The list of all tuples picking one element from each list, outer
index varying slowest. -/
def allTuples {α : Type} : List (List α) → List (List α)
  | [] => [[]]
  | l :: ls => (l.map fun x => (allTuples ls).map (x :: ·)).flatten

theorem sum_map_const {α : Type} :
    ∀ (l : List α) (c : Nat), (l.map fun _ => c).sum = l.length * c
  | [], _ => by simp
  | a :: l, c => by
    simp only [List.map_cons, List.sum_cons, List.length_cons,
      sum_map_const l c]
    ring

theorem length_allTuples {α : Type} :
    ∀ (ls : List (List α)), (allTuples ls).length = (ls.map List.length).prod
  | [] => rfl
  | l :: ls => by
    rw [allTuples, List.length_flatten, List.map_map]
    have h1 : (List.length ∘ fun x => (allTuples ls).map (x :: ·)) =
        fun _ => (allTuples ls).length := by
      funext x
      simp
    rw [h1, sum_map_const, length_allTuples ls, List.map_cons, List.prod_cons]

theorem mem_allTuples {α : Type} :
    ∀ (ls : List (List α)) (r : List α),
      r ∈ allTuples ls ↔ List.Forall₂ (fun x l => x ∈ l) r ls
  | [], r => by
    simp [allTuples, List.forall₂_nil_right_iff]
  | l :: ls, r => by
    rw [allTuples]
    simp only [List.mem_flatten, List.mem_map]
    constructor
    · rintro ⟨_, ⟨x, hx, rfl⟩, hr⟩
      obtain ⟨r2, hr2, rfl⟩ := List.mem_map.mp hr
      exact List.Forall₂.cons hx ((mem_allTuples ls r2).mp hr2)
    · intro h
      obtain ⟨x, r2, hx, h2, rfl⟩ := List.forall₂_cons_right_iff.mp h
      exact ⟨(allTuples ls).map (x :: ·), ⟨x, hx, rfl⟩,
        List.mem_map.mpr ⟨r2, (mem_allTuples ls r2).mpr h2, rfl⟩⟩

theorem nodup_allTuples {α : Type} :
    ∀ (ls : List (List α)), (∀ l ∈ ls, l.Nodup) → (allTuples ls).Nodup
  | [], _ => by simp [allTuples]
  | l :: ls, h => by
    rw [allTuples, List.nodup_flatten]
    constructor
    · intro l2 hl2
      obtain ⟨x, hx, rfl⟩ := List.mem_map.mp hl2
      exact (nodup_allTuples ls fun m hm =>
        h m (List.mem_cons_of_mem _ hm)).map fun a b hab => by
          injection hab
    · rw [List.pairwise_map]
      refine (h l (List.mem_cons_self l ls)).imp ?_
      intro a b hab r hra hrb
      obtain ⟨r1, hm1, rfl⟩ := List.mem_map.mp hra
      obtain ⟨r2, hm2, heq⟩ := List.mem_map.mp hrb
      injection heq with h1 h2
      exact hab h1.symm

theorem range_map_getElem {α : Type} (l : List α) :
    (List.range l.length).map (fun i => l[i]?) = l.map some := by
  apply List.ext_getElem
  · simp
  · intro i h1 h2
    have hi : i < l.length := by simpa using h2
    simp only [List.getElem_map, List.getElem_range]
    rw [List.getElem?_eq_getElem hi]

theorem allTuples_getElem {α : Type} :
    ∀ (ls : List (List α)),
      (allTuples (ls.map fun l => List.range l.length)).map
        (fun r => List.zipWith (fun (l2 : List α) (i : Nat) => l2[i]?) ls r) =
      (allTuples ls).map (List.map some)
  | [] => rfl
  | l :: ls => by
    have IH := allTuples_getElem ls
    rw [List.map_cons, allTuples, allTuples, List.map_flatten,
      List.map_flatten, List.map_map, List.map_map]
    congr 1
    have key : ∀ i : Nat,
        ((List.map fun r => List.zipWith
            (fun (l2 : List α) (i2 : Nat) => l2[i2]?) (l :: ls) r) ∘
          fun x => (allTuples (ls.map fun l2 => List.range l2.length)).map
            (x :: ·)) i =
        ((allTuples ls).map (List.map some)).map (l[i]? :: ·) := by
      intro i
      show (List.map fun r => List.zipWith
          (fun (l2 : List α) (i2 : Nat) => l2[i2]?) (l :: ls) r)
          ((allTuples (ls.map fun l2 => List.range l2.length)).map
            (i :: ·)) = _
      rw [List.map_map]
      have e1 : ((fun r => List.zipWith
          (fun (l2 : List α) (i2 : Nat) => l2[i2]?) (l :: ls) r) ∘
            (i :: ·)) =
          (fun r => (l[i]? :: r)) ∘
            fun r => List.zipWith
              (fun (l2 : List α) (i2 : Nat) => l2[i2]?) ls r := by
        funext r
        rfl
      rw [e1, ← List.map_map, IH]
    have key2 : ∀ x : α,
        ((List.map (List.map some)) ∘
          fun x2 => (allTuples ls).map (x2 :: ·)) x =
        ((allTuples ls).map (List.map some)).map (some x :: ·) := by
      intro x
      show List.map (List.map some) ((allTuples ls).map (x :: ·)) = _
      rw [List.map_map]
      have e2 : (List.map some) ∘ ((x : α) :: ·) =
          ((some x :: ·) ∘ List.map some : List α → List (Option α)) := by
        funext r
        rfl
      rw [e2, ← List.map_map]
    rw [funext key, funext key2]
    rw [show (fun i : Nat => ((allTuples ls).map (List.map some)).map
        (l[i]? :: ·)) = (fun o : Option α =>
          ((allTuples ls).map (List.map some)).map (o :: ·)) ∘
          (fun i : Nat => l[i]?) from rfl]
    rw [← List.map_map, range_map_getElem, List.map_map]
    rfl

/-! ## Chinese remaindering over a pairwise-coprime list -/

theorem coprime_list_prod (k : Nat) :
    ∀ (l : List Nat), (∀ x ∈ l, Nat.Coprime k x) → Nat.Coprime k l.prod
  | [], _ => Nat.coprime_one_right k
  | x :: l, h => by
    rw [List.prod_cons]
    exact Nat.Coprime.mul_right (h x (List.mem_cons_self x l))
      (coprime_list_prod k l fun y hy => h y (List.mem_cons_of_mem x hy))

theorem modEq_prod_of_forall :
    ∀ (ps : List Nat), ps.Pairwise Nat.Coprime →
      ∀ u v : Nat, (∀ p ∈ ps, u ≡ v [MOD p]) → u ≡ v [MOD ps.prod]
  | [], _, u, v, _ => by
    rw [List.prod_nil]
    exact Nat.modEq_one
  | p :: ps, hp, u, v, h => by
    rw [List.prod_cons]
    obtain ⟨hco, htail⟩ := List.pairwise_cons.mp hp
    have h1 : u ≡ v [MOD p] := h p (List.mem_cons_self p ps)
    have h2 : u ≡ v [MOD ps.prod] :=
      modEq_prod_of_forall ps htail u v fun q hq => h q (List.mem_cons_of_mem p hq)
    exact (Nat.modEq_and_modEq_iff_modEq_mul (coprime_list_prod p ps hco)).mp ⟨h1, h2⟩

theorem crt_unique (ps : List Nat) (hcp : ps.Pairwise Nat.Coprime) (u v : Nat)
    (hu : u < ps.prod) (hv : v < ps.prod) (h : ∀ p ∈ ps, u % p = v % p) :
    u = v := by
  have hm : u ≡ v [MOD ps.prod] := modEq_prod_of_forall ps hcp u v h
  have : u % ps.prod = v % ps.prod := hm
  rwa [Nat.mod_eq_of_lt hu, Nat.mod_eq_of_lt hv] at this

theorem crt_exists :
    ∀ (ps rs : List Nat), ps.Pairwise Nat.Coprime → (∀ p ∈ ps, 0 < p) →
      rs.length = ps.length →
      (∀ i (h1 : i < rs.length) (h2 : i < ps.length), rs[i] < ps[i]) →
      ∃ u, u < ps.prod ∧
        ∀ i (h1 : i < rs.length) (h2 : i < ps.length), u % ps[i] = rs[i]
  | [], [], _, _, _, _ => ⟨0, by simp, fun i h1 _ => by simp at h1⟩
  | [], r :: rs, _, _, hlen, _ => by simp at hlen
  | p :: ps, [], _, _, hlen, _ => by simp at hlen
  | p :: ps, r :: rs, hcp, hpos, hlen, hlt => by
    obtain ⟨hco, htail⟩ := List.pairwise_cons.mp hcp
    have hlen2 : rs.length = ps.length := by
      simpa using hlen
    obtain ⟨v, hvlt, hv⟩ := crt_exists ps rs htail
      (fun q hq => hpos q (List.mem_cons_of_mem p hq)) hlen2
      (fun i h1 h2 => by
        have := hlt (i + 1) (by simpa using Nat.succ_lt_succ h1)
          (by simpa using Nat.succ_lt_succ h2)
        simpa using this)
    have hcoprod : Nat.Coprime p ps.prod := coprime_list_prod p ps hco
    have hppos : 0 < p := hpos p (List.mem_cons_self p ps)
    have hprodpos : 0 < ps.prod :=
      List.prod_pos fun q hq => hpos q (List.mem_cons_of_mem p hq)
    obtain ⟨k, hk1, hk2⟩ := Nat.chineseRemainder hcoprod r v
    refine ⟨k % (p * ps.prod), ?_, ?_⟩
    · rw [List.prod_cons]
      exact Nat.mod_lt _ (Nat.mul_pos hppos hprodpos)
    · intro i h1 h2
      match i with
      | 0 =>
        show k % (p * ps.prod) % p = r
        rw [Nat.mod_mod_of_dvd _ (dvd_mul_right p ps.prod)]
        have hr : r < p := by
          have := hlt 0 (by simp) (by simp)
          simpa using this
        have : k % p = r % p := hk1
        rw [this, Nat.mod_eq_of_lt hr]
      | i + 1 =>
        have h1i : i < rs.length := by simpa using h1
        have h2i : i < ps.length := by simpa using h2
        show k % (p * ps.prod) % ps[i] = rs[i]
        have hdvd : ps[i] ∣ ps.prod := List.dvd_prod (List.getElem_mem h2i)
        rw [Nat.mod_mod_of_dvd _ (hdvd.trans (dvd_mul_left ps.prod p))]
        have hkv : k ≡ v [MOD ps[i]] := Nat.ModEq.of_dvd hdvd hk2
        have : k % ps[i] = v % ps[i] := hkv
        rw [this, hv i h1i h2i]

/-! ## The real steps enumerate all index tuples -/

theorem sched_perm (ps Ls : List Nat) (hlen : Ls.length = ps.length)
    (hcp : ps.Pairwise Nat.Coprime)
    (hLpos : ∀ i (h1 : i < Ls.length) (h2 : i < ps.length), 0 < Ls[i])
    (hle : ∀ i (h1 : i < Ls.length) (h2 : i < ps.length), Ls[i] ≤ ps[i]) :
    (((List.range ps.prod).filter (fun u => schedOK ps Ls u)).map
        (fun u => ps.map (u % ·))).Perm
      (allTuples (Ls.map List.range)) := by
  have hppos : ∀ p ∈ ps, 0 < p := by
    intro p hp
    obtain ⟨i, hi, rfl⟩ := List.mem_iff_getElem.mp hp
    have h1 : i < Ls.length := by omega
    have := hLpos i h1 hi
    have := hle i h1 hi
    omega
  have hLd : (allTuples (Ls.map List.range)).Nodup :=
    nodup_allTuples _ fun l hl => by
      obtain ⟨L, hL, rfl⟩ := List.mem_map.mp hl
      exact List.nodup_range L
  have hFd : (((List.range ps.prod).filter (fun u => schedOK ps Ls u)).map
      (fun u => ps.map (u % ·))).Nodup := by
    apply List.Nodup.map_on ?_ ((List.nodup_range ps.prod).filter _)
    intro u hu v hv hmap
    have hu2 : u < ps.prod := by
      have := (List.mem_filter.mp hu).1
      simpa using this
    have hv2 : v < ps.prod := by
      have := (List.mem_filter.mp hv).1
      simpa using this
    refine crt_unique ps hcp u v hu2 hv2 ?_
    intro p hp
    obtain ⟨i, hi, rfl⟩ := List.mem_iff_getElem.mp hp
    have e := congrArg (fun l : List Nat => l[i]?) hmap
    simp only [List.getElem?_map, List.getElem?_eq_getElem hi] at e
    simpa using e
  rw [List.perm_ext_iff_of_nodup hFd hLd]
  intro r
  rw [List.mem_map, mem_allTuples, List.forall₂_iff_get]
  constructor
  · rintro ⟨u, hu, rfl⟩
    have hu2 : u < ps.prod := by
      have := (List.mem_filter.mp hu).1
      simpa using this
    have hsched := (List.mem_filter.mp hu).2
    rw [schedOK_iff] at hsched
    refine ⟨by simp [hlen], ?_⟩
    intro i h1 h2
    have h1p : i < ps.length := by simpa using h1
    have h1L : i < Ls.length := by simpa using h2
    simp only [List.get_eq_getElem, List.getElem_map]
    rw [List.mem_range]
    exact hsched i h1p h1L
  · rintro ⟨hrlen, hr⟩
    have hrlen2 : r.length = ps.length := by
      rw [← hlen]
      simpa using hrlen
    have hrLs : r.length = Ls.length := by
      simpa using hrlen
    have hrlt : ∀ i (h1 : i < r.length) (h2 : i < Ls.length), r[i] < Ls[i] := by
      intro i h1 h2
      have h2m : i < (Ls.map List.range).length := by simpa using h2
      have := hr i h1 h2m
      simp only [List.get_eq_getElem, List.getElem_map, List.mem_range] at this
      exact this
    obtain ⟨u, hult, humod⟩ := crt_exists ps r hcp hppos hrlen2
      (fun i h1 h2 => by
        have hL : i < Ls.length := by omega
        have := hrlt i h1 hL
        have := hle i hL h2
        omega)
    refine ⟨u, ?_, ?_⟩
    · rw [List.mem_filter]
      refine ⟨by simpa using hult, ?_⟩
      rw [schedOK_iff]
      intro i h1 h2
      have hri : i < r.length := by omega
      rw [humod i hri h1]
      exact hrlt i hri h2
    · apply List.ext_getElem
      · simp [hrlen2]
      · intro i hmi hri
        have hip : i < ps.length := by simpa using hmi
        simp only [List.getElem_map]
        exact humod i hri hip

/-! ## The whole traversal from `begin()` -/

theorem prod_finalPads_pos {α : Type} (seqs : List (List α)) (hne : seqs ≠ [])
    (hall : ∀ l ∈ seqs, l ≠ []) : 0 < (finalPads seqs).prod :=
  List.prod_pos fun p hp => finalPads_pos seqs hall p hp

theorem collect_begin_eq {α : Type} (seqs : List (List α)) (hne : seqs ≠ [])
    (hall : ∀ l ∈ seqs, l ≠ []) (fuel : Nat)
    (hfuel : (finalPads seqs).prod + 1 ≤ fuel) :
    collect fuel (beginState seqs) =
      ((List.range ((finalPads seqs).prod)).filter
          (fun u => realAtB seqs u)).map
        (fun u => List.zipWith (fun (l : List α) (p : Nat) => l[u % p]?)
          seqs (finalPads seqs)) := by
  have hP := prod_finalPads_pos seqs hne hall
  have h := collect_reach seqs hne hall ((finalPads seqs).prod) 0 hP
    (by omega) (realAtB_zero seqs hall) fuel (by omega)
  have h0 : reach seqs 0 = beginState seqs := rfl
  rw [h0] at h
  rw [h, List.range_eq_range']
  apply List.map_congr_left
  intro u hu
  exact deref_reach_real seqs hall u (List.mem_filter.mp hu).2

theorem collect_begin_perm {α : Type} (seqs : List (List α)) (hne : seqs ≠ [])
    (hall : ∀ l ∈ seqs, l ≠ []) (fuel : Nat)
    (hfuel : (finalPads seqs).prod + 1 ≤ fuel) :
    (collect fuel (beginState seqs)).Perm
      ((allTuples seqs).map (List.map some)) := by
  rw [collect_begin_eq seqs hne hall fuel hfuel]
  have hfun : (fun u => List.zipWith (fun (l : List α) (p : Nat) => l[u % p]?)
      seqs (finalPads seqs)) =
      (fun r => List.zipWith (fun (l : List α) (i : Nat) => l[i]?) seqs r) ∘
        (fun u => (finalPads seqs).map (u % ·)) := by
    funext u
    show _ = List.zipWith (fun (l : List α) (i : Nat) => l[i]?) seqs
      ((finalPads seqs).map (u % ·))
    rw [List.zipWith_map_right]
  rw [hfun, ← List.map_map]
  have hlen : (seqs.map List.length).length = (finalPads seqs).length := by
    rw [List.length_map, finalPads_length]
  have hLpos : ∀ i (h1 : i < (seqs.map List.length).length)
      (h2 : i < (finalPads seqs).length), 0 < (seqs.map List.length)[i] := by
    intro i h1 h2
    have hi2 : i < seqs.length := by simpa using h1
    simp only [List.getElem_map]
    exact seqs_getElem_pos seqs hall i hi2
  have hle : ∀ i (h1 : i < (seqs.map List.length).length)
      (h2 : i < (finalPads seqs).length),
      (seqs.map List.length)[i] ≤ (finalPads seqs)[i] := by
    intro i h1 h2
    have hi2 : i < seqs.length := by simpa using h1
    have him : i < (reach seqs (maxLen seqs)).nodes.length := by
      rw [reach_len]
      exact hi2
    simp only [List.getElem_map]
    exact length_le_finalPads seqs hall i h2 hi2 him
  have hperm := sched_perm (finalPads seqs) (seqs.map List.length) hlen
    (finalPads_pairwise_coprime seqs hall) hLpos hle
  have hperm2 := hperm.map
    (fun r => List.zipWith (fun (l : List α) (i : Nat) => l[i]?) seqs r)
  have e3 : ((allTuples ((seqs.map List.length).map List.range)).map
      (fun r => List.zipWith (fun (l : List α) (i : Nat) => l[i]?) seqs r)) =
      (allTuples seqs).map (List.map some) := by
    rw [List.map_map]
    exact allTuples_getElem seqs
  rw [e3] at hperm2
  exact hperm2

theorem collect_begin_length {α : Type} (seqs : List (List α)) (hne : seqs ≠ [])
    (hall : ∀ l ∈ seqs, l ≠ []) (fuel : Nat)
    (hfuel : (finalPads seqs).prod + 1 ≤ fuel) :
    (collect fuel (beginState seqs)).length = (seqs.map List.length).prod := by
  rw [(collect_begin_perm seqs hne hall fuel hfuel).length_eq,
    List.length_map, length_allTuples]


/-! ## The running total a node sees at its discovery step -/

/-- The running total `set_size` reads when node `i` discovers its length
(the product of the pads of all nodes discovered strictly before it,
`prodOpt []` (= 0) when it is the first). -/
def discoveryTot {α : Type} (seqs : List (List α)) (i : Nat) : Nat :=
  prodOpt (discoveredPads
      (reach seqs ((seqs[i]?.getD []).length - 1)).nodes ++
    newlyPads ((reach seqs ((seqs[i]?.getD []).length - 1)).nodes.take i)
      ((reach seqs ((seqs[i]?.getD []).length)).nodes.take i))

/-- At its discovery step, a node's `size_` becomes its true length and its
`fakesize_` becomes `padOf` of the running total it saw; and both persist. -/
theorem reach_discovery_event {α : Type} (seqs : List (List α))
    (hall : ∀ l ∈ seqs, l ≠ []) (i : Nat) (hi2 : i < seqs.length)
    (t : Nat) (hL : (seqs[i]).length ≤ t)
    (hi : i < (reach seqs t).nodes.length) :
    ((reach seqs t).nodes[i]).size_ = (seqs[i]).length ∧
    ((reach seqs t).nodes[i]).fakesize_ =
      padOf (discoveryTot seqs i) ((seqs[i]).length) := by
  have hL1 : 1 ≤ (seqs[i]).length := seqs_getElem_pos seqs hall i hi2
  set L := (seqs[i]).length with hLdef
  have ht0 : L - 1 + 1 = L := by omega
  have hi0 : i < (reach seqs (L - 1)).nodes.length := by
    rw [reach_len]; exact hi2
  have hiL1 : i < (reach seqs (L - 1 + 1)).nodes.length := by
    rw [reach_len]; exact hi2
  have hseq0 := reach_seq seqs (L - 1) i hi0 hi2
  have hundisc : ((reach seqs (L - 1)).nodes[i]).fakesize_ = 0 := by
    have := reach_discovered_iff seqs (L - 1) i hi0
    rw [hseq0] at this
    cases hx : ((reach seqs (L - 1)).nodes[i]).fakesize_ with
    | zero => rfl
    | succ k =>
      have := this.mp (by omega)
      omega
  have CF := reach_chainFacts seqs (L - 1)
  have hiR : i < (do_increment (reach seqs (L - 1)).nodes
      (reach seqs (L - 1)).total (reach seqs (L - 1)).gcounter).1.length := by
    rw [CF.len_eq]; exact hi0
  have hnew := CF.newly_eq i hi0 hiR hundisc (by rw [hseq0]; omega)
  have e1 : ((reach seqs (L - 1 + 1)).nodes[i]).size_ = L - 1 + 1 := hnew.1
  have e2 : ((reach seqs (L - 1 + 1)).nodes[i]).fakesize_ =
      padOf (prodOpt ([] ++ discoveredPads (reach seqs (L - 1)).nodes ++
        newlyPads ((reach seqs (L - 1)).nodes.take i)
          ((reach seqs (L - 1 + 1)).nodes.take i))) (L - 1 + 1) := hnew.2
  have e1' := e1.trans ht0
  conv at e2 =>
    rhs
    rw [ht0]
  have hdt : padOf (prodOpt ([] ++ discoveredPads (reach seqs (L - 1)).nodes ++
      newlyPads ((reach seqs (L - 1)).nodes.take i)
        ((reach seqs L).nodes.take i))) L =
      padOf (discoveryTot seqs i) L := by
    rw [discoveryTot]
    have hgd : seqs[i]?.getD [] = seqs[i] := by
      rw [List.getElem?_eq_getElem hi2]
      rfl
    rw [hgd, ← hLdef]
    rfl
  rw [hdt] at e2
  have hdisc : ((reach seqs (L - 1 + 1)).nodes[i]).fakesize_ ≠ 0 := by
    rw [e2]
    have := le_padOf (discoveryTot seqs i) L
    omega
  have hfix := reach_fix seqs (L - 1 + 1) t (by omega) i hiL1 hi hdisc
  rw [hfix.1, hfix.2, e1', e2]
  exact ⟨rfl, rfl⟩

/-! ## `begin() == end()` when some input is empty -/

theorem begin_eq_end_of_empty {α : Type} :
    ∀ (seqs : List (List α)), (∃ l ∈ seqs, l = []) →
      cursorNe (beginState seqs).nodes (endNodesOf (beginState seqs).nodes) = false
  | [], h => by simp at h
  | l :: rest, h => by
    have hnodes : (beginState (l :: rest)).nodes =
        (⟨l, 0, 0, 0, 0, 0⟩ : MPNode α) :: (beginState rest).nodes := rfl
    have hend : endNodesOf ((⟨l, 0, 0, 0, 0, 0⟩ : MPNode α) ::
        (beginState rest).nodes) =
        (⟨l, 0, 0, l.length, l.length, 0⟩ : MPNode α) ::
          endNodesOf (beginState rest).nodes := rfl
    rw [hnodes, hend, cursorNe]
    rcases h with ⟨m, hm, hmnil⟩
    rcases List.mem_cons.mp hm with rfl | hmr
    · subst hmnil
      simp
    · have hrest := begin_eq_end_of_empty rest ⟨m, hmr, hmnil⟩
      have hrne : (beginState rest).nodes ≠ [] := by
        intro hc
        have : rest = [] := by
          have := congrArg List.length hc
          simp only [beginState, List.length_map] at this
          exact List.eq_nil_of_length_eq_zero this
        subst this
        simp at hmr
      rw [hrest]
      have : (beginState rest).nodes.isEmpty = false := by
        cases hx : (beginState rest).nodes with
        | nil => exact absurd hx hrne
        | cons a as => rfl
      rw [this]
      simp

/-! ## `operator++` terminates from every mid-cycle position -/

theorem opInc_terminates {α : Type} (seqs : List (List α)) (hne : seqs ≠ [])
    (hall : ∀ l ∈ seqs, l ≠ []) (t : Nat)
    (ht : t < (finalPads seqs).prod) :
    ∃ fuel s, opInc fuel (reach seqs t) = some s := by
  have hQex : ∃ d, t + d + 1 = (finalPads seqs).prod ∨
      realAtB seqs (t + d + 1) = true :=
    ⟨(finalPads seqs).prod - t - 1, Or.inl (by omega)⟩
  have hkey : ∃ d0, (t + d0 + 1 = (finalPads seqs).prod ∨
      realAtB seqs (t + d0 + 1) = true) ∧
      d0 ≤ (finalPads seqs).prod - t - 1 ∧
      ∀ u, t < u → u < t + d0 + 1 → realAtB seqs u = false := by
    refine ⟨Nat.find hQex, Nat.find_spec hQex,
      Nat.find_min' hQex (Or.inl (by omega)), ?_⟩
    intro u hu1 hu2
    have hd2 : u - t - 1 < Nat.find hQex := by omega
    have hm := Nat.find_min hQex hd2
    push_neg at hm
    have harg : t + (u - t - 1) + 1 = u := by omega
    rw [harg] at hm
    cases hx : realAtB seqs u
    · rfl
    · exact absurd hx hm.2
  obtain ⟨d0, hQ, hdk, hno⟩ := hkey
  have hle : t + d0 + 1 ≤ (finalPads seqs).prod := by omega
  have hrealNext : t + d0 + 1 < (finalPads seqs).prod →
      realAtB seqs (t + d0 + 1) = true := by
    intro hlt
    rcases hQ with h | h
    · omega
    · exact h
  have hop := opInc_reach seqs hne hall d0 t hle hrealNext hno (d0 + 1)
    (by omega)
  rcases Nat.lt_or_ge (t + d0 + 1) ((finalPads seqs).prod) with hlt | hge
  · exact ⟨d0 + 1, reach seqs (t + d0 + 1), by rw [hop, if_pos hlt]⟩
  · exact ⟨d0 + 1, assignEnd (reach seqs (t + d0 + 1)),
      by rw [hop, if_neg (by omega)]⟩

/-! ## The single-sequence traversal -/

theorem maxLen_single {α : Type} (l : List α) : maxLen [l] = l.length := by
  simp [maxLen]

theorem finalPads_single {α : Type} (l : List α) (hl : l ≠ []) :
    finalPads [l] = [l.length] := by
  have hall : ∀ m ∈ [l], m ≠ [] := by
    intro m hm
    rw [List.mem_singleton] at hm
    subst hm
    exact hl
  have hlen : (finalPads [l]).length = 1 := by
    rw [finalPads_length]
    rfl
  have h1 : 1 ≤ l.length := by
    cases l with
    | nil => exact absurd rfl hl
    | cons a as => simp
  have hi2 : 0 < ([l] : List (List α)).length := by simp
  have hi : 0 < (reach [l] l.length).nodes.length := by
    rw [reach_len]
    simp
  have hd := reach_discovery_event [l] hall 0 hi2 l.length (by simp) hi
  have htb : discoveryTot [l] 0 = 0 := by
    have hstep : discoveryTot [l] 0 =
        prodOpt (discoveredPads (reach [l] (l.length - 1)).nodes ++
          newlyPads [] []) := rfl
    rw [hstep]
    have hz : ∀ n ∈ (reach [l] (l.length - 1)).nodes, n.fakesize_ = 0 := by
      intro n hn
      obtain ⟨j, hj, rfl⟩ := List.mem_iff_getElem.mp hn
      have hj2 : j < ([l] : List (List α)).length := by
        rw [← reach_len [l] (l.length - 1)]
        exact hj
      have hjlen : j < ([l] : List (List α)).length := hj2
      have hj0 : j = 0 := by
        simp at hjlen
        omega
      subst hj0
      have hseq := reach_seq [l] (l.length - 1) 0 hj hj2
      have hget : (([l] : List (List α))[0]) = l := rfl
      rw [hget] at hseq
      have hiff := reach_discovered_iff [l] (l.length - 1) 0 hj
      rw [hseq] at hiff
      cases hx : (((reach [l] (l.length - 1)).nodes[0]).fakesize_) with
      | zero => rfl
      | succ k =>
        have := hiff.mp (by omega)
        omega
    rw [discoveredPads_of_all_zero _ hz]
    rfl
  have hget0 : (([l] : List (List α))[0]) = l := rfl
  apply List.ext_getElem
  · rw [hlen]
    rfl
  · intro i i1 i2
    have hi0 : i = 0 := by
      rw [hlen] at i1
      omega
    subst hi0
    have him : 0 < (reach [l] (maxLen [l])).nodes.length := by
      rw [reach_len]
      simp
    have he := getElem_finalPads [l] 0 i1 him
    rw [he]
    have hd2 := reach_discovery_event [l] hall 0 hi2 (maxLen [l])
      (by rw [maxLen_single]; exact Nat.le.refl) him
    rw [hget0] at hd2
    rw [hd2.2, htb, padOf_zero]
    rfl

theorem realAtB_single {α : Type} (l : List α) (hl : l ≠ []) (u : Nat) :
    realAtB [l] u = true := by
  rw [realAtB_iff]
  intro i h1 h2
  have hi0 : i = 0 := by
    simp at h1
    omega
  subst hi0
  have hfp := List.getElem_of_eq (finalPads_single l hl) h2
  rw [hfp]
  show u % l.length < l.length
  have h1len : 1 ≤ l.length := by
    cases l with
    | nil => exact absurd rfl hl
    | cons a as => simp
  exact Nat.mod_lt _ (by omega)

theorem collect_single {α : Type} (l : List α) (hl : l ≠ []) (fuel : Nat)
    (hfuel : l.length + 1 ≤ fuel) :
    collect fuel (beginState [l]) = l.map (fun x => [some x]) := by
  have hall : ∀ m ∈ [l], m ≠ [] := by
    intro m hm
    rw [List.mem_singleton] at hm
    subst hm
    exact hl
  have hne : ([l] : List (List α)) ≠ [] := by simp
  have hprod : (finalPads [l]).prod = l.length := by
    rw [finalPads_single l hl]
    simp
  have h := collect_begin_eq [l] hne hall fuel (by omega)
  rw [hprod] at h
  have hfilter : (List.range l.length).filter (fun u => realAtB [l] u) =
      List.range l.length := by
    apply List.filter_eq_self.mpr
    intro u hu
    exact realAtB_single l hl u
  rw [hfilter] at h
  rw [h]
  have hmapeq : ∀ u ∈ List.range l.length,
      (List.zipWith (fun (m : List α) (p : Nat) => m[u % p]?) [l]
        (finalPads [l])) = [l[u]?] := by
    intro u hu
    rw [finalPads_single l hl]
    have : List.zipWith (fun (m : List α) (p : Nat) => m[u % p]?) [l]
        [l.length] = [l[u % l.length]?] := rfl
    rw [this]
    have hu2 : u < l.length := List.mem_range.mp hu
    rw [Nat.mod_eq_of_lt hu2]
  rw [List.map_congr_left hmapeq]
  have : (fun u : Nat => ([l[u]?] : List (Option α))) =
      (fun o : Option α => [o]) ∘ (fun u : Nat => l[u]?) := rfl
  rw [this, ← List.map_map, range_map_getElem, List.map_map]
  rfl

theorem stepFlag_single {α : Type} (l : List α) (hl : l ≠ []) (u : Nat) :
    (stepState (reach [l] u)).2 = false := by
  have hall : ∀ m ∈ [l], m ≠ [] := by
    intro m hm
    rw [List.mem_singleton] at hm
    subst hm
    exact hl
  cases hx : (stepState (reach [l] u)).2 with
  | false => rfl
  | true =>
    have := (stepFlag_iff [l] hall u).mp hx
    rw [realAtB_single l hl (u + 1)] at this
    exact absurd this (by simp)


/-- C1: for N ≥ 1 nonempty inputs, the traversal from `begin()` to `end()`
emits exactly the product of the true lengths as tuples, and the emitted
tuples are exactly the combinations of one element per sequence, each
appearing exactly once; padding-phase (fake) combinations are never
emitted. -/
theorem C1_traversal_emits_each_combination_once {α : Type}
    (seqs : List (List α)) (hne : seqs ≠ []) (hall : ∀ l ∈ seqs, l ≠ []) :
    (collect ((finalPads seqs).prod + 1) (beginState seqs)).length =
      (seqs.map List.length).prod ∧
    (collect ((finalPads seqs).prod + 1) (beginState seqs)).Perm
      ((allTuples seqs).map (List.map some)) :=
  ⟨collect_begin_length seqs hne hall _ (Nat.le_refl _),
   collect_begin_perm seqs hne hall _ (Nat.le_refl _)⟩

theorem C1_traversal_emits_each_combination_once_witness :
    (([[0, 1], [10, 20, 30]] : List (List Nat)) ≠ [] ∧
      (∀ l ∈ ([[0, 1], [10, 20, 30]] : List (List Nat)), l ≠ [])) ∧
    ((collect ((finalPads [[0, 1], [10, 20, 30]]).prod + 1)
        (beginState [[0, 1], [10, 20, 30]])).length =
      (([[0, 1], [10, 20, 30]] : List (List Nat)).map List.length).prod ∧
    (collect ((finalPads [[0, 1], [10, 20, 30]]).prod + 1)
        (beginState [[0, 1], [10, 20, 30]])).Perm
      ((allTuples [[0, 1], [10, 20, 30]]).map (List.map some))) :=
  ⟨⟨by decide, by decide⟩,
   C1_traversal_emits_each_combination_once [[0, 1], [10, 20, 30]]
     (by decide) (by decide)⟩

/-- C2: `set_size` with observed length `sz > 0` sets both lengths to `sz`
and the total to `sz` when the running total is `0`; otherwise it sets the
padded length to the least integer ≥ `sz` coprime to the total (searching
upward from `sz`) and multiplies the total by it; and the `gcd` helper is
the Euclidean algorithm with `gcd x 0 = x`. -/
theorem C2_set_size_spec {α : Type} (n : MPNode α) (tot sz : Nat)
    (hsz : 0 < sz) :
    (tot = 0 →
      set_size n tot sz = ({ n with size_ := sz, fakesize_ := sz }, sz)) ∧
    (0 < tot →
      set_size n tot sz =
        ({ n with size_ := sz, fakesize_ := padOf tot sz },
          padOf tot sz * tot) ∧
      sz ≤ padOf tot sz ∧ Nat.gcd (padOf tot sz) tot = 1 ∧
      ∀ m, sz ≤ m → m < padOf tot sz → Nat.gcd m tot ≠ 1) ∧
    (∀ a b : Nat, gcd a b = Nat.gcd a b) ∧ (∀ x : Nat, gcd x 0 = x) := by
  have hne : sz ≠ 0 := by omega
  refine ⟨?_, ?_, gcd_eq_gcd, gcd_zero_right_eq⟩
  · intro h0
    subst h0
    rw [set_size_eq n 0 sz hne, if_pos rfl, padOf_zero]
  · intro hpos
    have htne : tot ≠ 0 := by omega
    have hs := padOf_pos_spec tot sz hpos
    exact ⟨by rw [set_size_eq n tot sz hne, if_neg htne], hs.1, hs.2.1, hs.2.2⟩

theorem C2_set_size_spec_witness :
    0 < 2 ∧
    ((4 = 0 →
      set_size (⟨[5, 6], 0, 0, 0, 0, 0⟩ : MPNode Nat) 4 2 =
        ({ (⟨[5, 6], 0, 0, 0, 0, 0⟩ : MPNode Nat) with
            size_ := 2, fakesize_ := 2 }, 2)) ∧
    (0 < 4 →
      set_size (⟨[5, 6], 0, 0, 0, 0, 0⟩ : MPNode Nat) 4 2 =
        ({ (⟨[5, 6], 0, 0, 0, 0, 0⟩ : MPNode Nat) with
            size_ := 2, fakesize_ := padOf 4 2 }, padOf 4 2 * 4) ∧
      2 ≤ padOf 4 2 ∧ Nat.gcd (padOf 4 2) 4 = 1 ∧
      ∀ m, 2 ≤ m → m < padOf 4 2 → Nat.gcd m 4 ≠ 1) ∧
    (∀ a b : Nat, gcd a b = Nat.gcd a b) ∧ (∀ x : Nat, gcd x 0 = x)) :=
  ⟨by decide, C2_set_size_spec (⟨[5, 6], 0, 0, 0, 0, 0⟩ : MPNode Nat) 4 2
    (by decide)⟩

/-- C3: in every reachable state, a node's padded length is `0` until its
true length is discovered; once discovered, `size_` is the true length, the
padded length is at least it, equals it when the running total seen at
discovery was `0`, and is coprime to that prior total otherwise; both are
then fixed forever; and the running total is at every step the product of
the discovered pads, the step's new discoveries (in chain order) being
exactly what is multiplied in. -/
theorem C3_discovery_invariants {α : Type} (seqs : List (List α))
    (hall : ∀ l ∈ seqs, l ≠ []) (i t : Nat) (hi2 : i < seqs.length)
    (hi : i < (reach seqs t).nodes.length) :
    (t < (seqs[i]).length → ((reach seqs t).nodes[i]).fakesize_ = 0) ∧
    ((seqs[i]).length ≤ t →
      ((reach seqs t).nodes[i]).size_ = (seqs[i]).length ∧
      (seqs[i]).length ≤ ((reach seqs t).nodes[i]).fakesize_ ∧
      (discoveryTot seqs i = 0 →
        ((reach seqs t).nodes[i]).fakesize_ = (seqs[i]).length) ∧
      (0 < discoveryTot seqs i →
        Nat.gcd (((reach seqs t).nodes[i]).fakesize_)
          (discoveryTot seqs i) = 1)) ∧
    ((seqs[i]).length ≤ t → ∀ t2, t ≤ t2 →
      ∀ (hi3 : i < (reach seqs t2).nodes.length),
      ((reach seqs t2).nodes[i]).size_ = ((reach seqs t).nodes[i]).size_ ∧
      ((reach seqs t2).nodes[i]).fakesize_ =
        ((reach seqs t).nodes[i]).fakesize_) ∧
    ((reach seqs (t + 1)).total =
      prodOpt (discoveredPads (reach seqs t).nodes ++
        newlyPads (reach seqs t).nodes (reach seqs (t + 1)).nodes) ∧
    (discoveredPads (reach seqs (t + 1)).nodes).Perm
      (discoveredPads (reach seqs t).nodes ++
        newlyPads (reach seqs t).nodes (reach seqs (t + 1)).nodes)) := by
  have hseq := reach_seq seqs t i hi hi2
  refine ⟨?_, ?_, ?_, ?_, ?_⟩
  · intro hu
    have hiff := reach_discovered_iff seqs t i hi
    rw [hseq] at hiff
    cases hx : ((reach seqs t).nodes[i]).fakesize_ with
    | zero => rfl
    | succ k =>
      have := hiff.mp (by omega)
      omega
  · intro hu
    have hd := reach_discovery_event seqs hall i hi2 t hu hi
    refine ⟨hd.1, ?_, ?_, ?_⟩
    · rw [hd.2]
      exact le_padOf _ _
    · intro h0
      rw [hd.2, h0, padOf_zero]
    · intro h0
      rw [hd.2]
      exact (padOf_pos_spec _ _ h0).2.1
  · intro hu t2 ht2 hi3
    have hd := reach_discovery_event seqs hall i hi2 t hu hi
    have hdisc : ((reach seqs t).nodes[i]).fakesize_ ≠ 0 := by
      rw [hd.2]
      have h1 := seqs_getElem_pos seqs hall i hi2
      have := le_padOf (discoveryTot seqs i) ((seqs[i]).length)
      omega
    exact reach_fix seqs t t2 ht2 i hi hi3 hdisc
  · have CF := reach_chainFacts seqs t
    exact CF.tot_eq
  · have CF := reach_chainFacts seqs t
    exact CF.pads_perm

theorem C3_discovery_invariants_witness :
    ((∀ l ∈ ([[0, 1], [0, 1, 2, 3]] : List (List Nat)), l ≠ []) ∧
      1 < ([[0, 1], [0, 1, 2, 3]] : List (List Nat)).length ∧
      1 < (reach [[0, 1], [0, 1, 2, 3]] 4).nodes.length) ∧
    ((4 < (([[0, 1], [0, 1, 2, 3]] : List (List Nat))[1]).length →
      ((reach [[0, 1], [0, 1, 2, 3]] 4).nodes[1]).fakesize_ = 0) ∧
    ((([[0, 1], [0, 1, 2, 3]] : List (List Nat))[1]).length ≤ 4 →
      ((reach [[0, 1], [0, 1, 2, 3]] 4).nodes[1]).size_ =
        (([[0, 1], [0, 1, 2, 3]] : List (List Nat))[1]).length ∧
      (([[0, 1], [0, 1, 2, 3]] : List (List Nat))[1]).length ≤
        ((reach [[0, 1], [0, 1, 2, 3]] 4).nodes[1]).fakesize_ ∧
      (discoveryTot [[0, 1], [0, 1, 2, 3]] 1 = 0 →
        ((reach [[0, 1], [0, 1, 2, 3]] 4).nodes[1]).fakesize_ =
          (([[0, 1], [0, 1, 2, 3]] : List (List Nat))[1]).length) ∧
      (0 < discoveryTot [[0, 1], [0, 1, 2, 3]] 1 →
        Nat.gcd (((reach [[0, 1], [0, 1, 2, 3]] 4).nodes[1]).fakesize_)
          (discoveryTot [[0, 1], [0, 1, 2, 3]] 1) = 1)) ∧
    ((([[0, 1], [0, 1, 2, 3]] : List (List Nat))[1]).length ≤ 4 →
      ∀ t2, 4 ≤ t2 →
      ∀ (hi3 : 1 < (reach [[0, 1], [0, 1, 2, 3]] t2).nodes.length),
      ((reach [[0, 1], [0, 1, 2, 3]] t2).nodes[1]).size_ =
        ((reach [[0, 1], [0, 1, 2, 3]] 4).nodes[1]).size_ ∧
      ((reach [[0, 1], [0, 1, 2, 3]] t2).nodes[1]).fakesize_ =
        ((reach [[0, 1], [0, 1, 2, 3]] 4).nodes[1]).fakesize_) ∧
    ((reach [[0, 1], [0, 1, 2, 3]] 5).total =
      prodOpt (discoveredPads (reach [[0, 1], [0, 1, 2, 3]] 4).nodes ++
        newlyPads (reach [[0, 1], [0, 1, 2, 3]] 4).nodes
          (reach [[0, 1], [0, 1, 2, 3]] 5).nodes) ∧
    (discoveredPads (reach [[0, 1], [0, 1, 2, 3]] 5).nodes).Perm
      (discoveredPads (reach [[0, 1], [0, 1, 2, 3]] 4).nodes ++
        newlyPads (reach [[0, 1], [0, 1, 2, 3]] 4).nodes
          (reach [[0, 1], [0, 1, 2, 3]] 5).nodes))) :=
  ⟨⟨by decide, by decide, by decide⟩,
   C3_discovery_invariants [[0, 1], [0, 1, 2, 3]] (by decide) 1 4
     (by decide) (by decide)⟩

/-- C4: on inputs `{0,1}` and `{0,1,2,3}` the generator emits exactly the 8
tuples (0,0),(1,1),(0,2),(1,3),(1,0),(0,1),(1,2),(0,3), in that order — the
product of the true lengths, with no fake combination emitted. -/
theorem C4_not_coprime_literal_traversal :
    collect ((finalPads [[0, 1], [0, 1, 2, 3]]).prod + 1)
        (beginState [[0, 1], [0, 1, 2, 3]]) =
      [[some 0, some 0], [some 1, some 1], [some 0, some 2], [some 1, some 3],
       [some 1, some 0], [some 0, some 1], [some 1, some 2],
       [some 0, some 3]] ∧
    (collect ((finalPads [[0, 1], [0, 1, 2, 3]]).prod + 1)
        (beginState [[0, 1], [0, 1, 2, 3]])).length = 2 * 4 := by
  decide

/-- C5: whenever some input sequence is empty — whatever its position —
`begin()` compares equal to `end()` immediately. -/
theorem C5_empty_input_begin_eq_end {α : Type} (seqs : List (List α))
    (hemp : ∃ l ∈ seqs, l = []) :
    cursorNe (beginState seqs).nodes
      (endNodesOf (beginState seqs).nodes) = false :=
  begin_eq_end_of_empty seqs hemp

theorem C5_empty_input_begin_eq_end_witness :
    ((∃ l ∈ ([[], [0, 1], [0, 1, 2]] : List (List Nat)), l = []) ∧
     (∃ l ∈ ([[0, 1], [], [0, 1, 2]] : List (List Nat)), l = []) ∧
     (∃ l ∈ ([[0, 1], [0, 1, 2], []] : List (List Nat)), l = [])) ∧
    cursorNe (beginState [[], [0, 1], [0, 1, 2]]).nodes
      (endNodesOf (beginState ([[], [0, 1], [0, 1, 2]] :
        List (List Nat))).nodes) = false ∧
    cursorNe (beginState [[0, 1], [], [0, 1, 2]]).nodes
      (endNodesOf (beginState ([[0, 1], [], [0, 1, 2]] :
        List (List Nat))).nodes) = false ∧
    cursorNe (beginState [[0, 1], [0, 1, 2], []]).nodes
      (endNodesOf (beginState ([[0, 1], [0, 1, 2], []] :
        List (List Nat))).nodes) = false :=
  ⟨⟨by decide, by decide, by decide⟩,
   C5_empty_input_begin_eq_end [[], [0, 1], [0, 1, 2]] (by decide),
   C5_empty_input_begin_eq_end [[0, 1], [], [0, 1, 2]] (by decide),
   C5_empty_input_begin_eq_end [[0, 1], [0, 1, 2], []] (by decide)⟩

/-- C6 (amended): two composite cursors of the same arity (≥ 1 node)
compare equal iff SOME node's raw cursor compares equal to its counterpart
— not iff every node's does: `operator!=` requires every raw cursor to
differ, so its negation only requires one agreement.  The terminal
(zero-node) comparison is vacuously always-equal. -/
theorem C6_cursor_eq_iff_some_node_eq {α : Type} (as bs : List (MPNode α))
    (hlen : as.length = bs.length) (hne : as ≠ []) :
    (cursorNe as bs = false ↔
      ∃ i, ∃ (h1 : i < as.length), ∃ (h2 : i < bs.length),
        (as[i]).pos = (bs[i]).pos) ∧
    cursorNe ([] : List (MPNode α)) [] = false := by
  refine ⟨?_, cursorNe_nil⟩
  rw [cursorNe_eq_false_iff as bs hlen hne]
  push_neg
  rfl

theorem C6_cursor_eq_iff_some_node_eq_witness :
    (([⟨[0, 1], 0, 0, 0, 0, 0⟩, ⟨[0, 1], 0, 0, 0, 0, 0⟩] :
        List (MPNode Nat)).length =
      ([⟨[0, 1], 0, 0, 0, 0, 0⟩, ⟨[0, 1], 0, 0, 1, 0, 0⟩] :
        List (MPNode Nat)).length ∧
     ([⟨[0, 1], 0, 0, 0, 0, 0⟩, ⟨[0, 1], 0, 0, 0, 0, 0⟩] :
        List (MPNode Nat)) ≠ []) ∧
    ((cursorNe
        ([⟨[0, 1], 0, 0, 0, 0, 0⟩, ⟨[0, 1], 0, 0, 0, 0, 0⟩] :
          List (MPNode Nat))
        [⟨[0, 1], 0, 0, 0, 0, 0⟩, ⟨[0, 1], 0, 0, 1, 0, 0⟩] = false ↔
      ∃ i, ∃ (h1 : i < ([⟨[0, 1], 0, 0, 0, 0, 0⟩, ⟨[0, 1], 0, 0, 0, 0, 0⟩] :
          List (MPNode Nat)).length),
        ∃ (h2 : i < ([⟨[0, 1], 0, 0, 0, 0, 0⟩, ⟨[0, 1], 0, 0, 1, 0, 0⟩] :
          List (MPNode Nat)).length),
        ((([⟨[0, 1], 0, 0, 0, 0, 0⟩, ⟨[0, 1], 0, 0, 0, 0, 0⟩] :
          List (MPNode Nat))[i]).pos =
         (([⟨[0, 1], 0, 0, 0, 0, 0⟩, ⟨[0, 1], 0, 0, 1, 0, 0⟩] :
          List (MPNode Nat))[i]).pos)) ∧
    cursorNe ([] : List (MPNode Nat)) [] = false) :=
  ⟨⟨by decide, by decide⟩,
   C6_cursor_eq_iff_some_node_eq
     [⟨[0, 1], 0, 0, 0, 0, 0⟩, ⟨[0, 1], 0, 0, 0, 0, 0⟩]
     [⟨[0, 1], 0, 0, 0, 0, 0⟩, ⟨[0, 1], 0, 0, 1, 0, 0⟩]
     (by decide) (by decide)⟩

/-- C6 counterexample: two 2-node cursors whose first nodes agree but whose
second nodes differ still compare equal (`operator!=` is false), refuting
"equal iff every node's raw cursor compares equal pairwise". -/
theorem C6_every_node_equal_counterexample :
    cursorNe
        ([⟨[0, 1], 0, 0, 0, 0, 0⟩, ⟨[0, 1], 0, 0, 0, 0, 0⟩] :
          List (MPNode Nat))
        [⟨[0, 1], 0, 0, 0, 0, 0⟩, ⟨[0, 1], 0, 0, 1, 0, 0⟩] = false ∧
    ¬ (∀ i (h1 : i < ([⟨[0, 1], 0, 0, 0, 0, 0⟩, ⟨[0, 1], 0, 0, 0, 0, 0⟩] :
          List (MPNode Nat)).length)
        (h2 : i < ([⟨[0, 1], 0, 0, 0, 0, 0⟩, ⟨[0, 1], 0, 0, 1, 0, 0⟩] :
          List (MPNode Nat)).length),
        ((([⟨[0, 1], 0, 0, 0, 0, 0⟩, ⟨[0, 1], 0, 0, 0, 0, 0⟩] :
          List (MPNode Nat))[i]).pos =
         (([⟨[0, 1], 0, 0, 0, 0, 0⟩, ⟨[0, 1], 0, 0, 1, 0, 0⟩] :
          List (MPNode Nat))[i]).pos)) := by
  decide

/-- C7: `is_fake()` is true iff the node's length has been discovered
(`fakesize_ ≠ 0`) and the lap counter lies in the padding region
`[size_, fakesize_)`. -/
theorem C7_is_fake_characterization {α : Type} (n : MPNode α) :
    is_fake n = true ↔
      n.fakesize_ ≠ 0 ∧ n.size_ ≤ n.counter ∧ n.counter < n.fakesize_ :=
  is_fake_iff n

/-- C8: a single input of length L is passed through unchanged: the output
is the input's elements in order, each as a 1-tuple, L tuples in all, and
no raw step is ever flagged fake (skipped). -/
theorem C8_single_sequence_passthrough {α : Type} (l : List α)
    (hl : l ≠ []) (fuel : Nat) (hfuel : l.length + 1 ≤ fuel) :
    collect fuel (beginState [l]) = l.map (fun x => [some x]) ∧
    ∀ u : Nat, (stepState (reach [l] u)).2 = false :=
  ⟨collect_single l hl fuel hfuel, fun u => stepFlag_single l hl u⟩

theorem C8_single_sequence_passthrough_witness :
    (([10, 20] : List Nat) ≠ [] ∧ ([10, 20] : List Nat).length + 1 ≤ 3) ∧
    (collect 3 (beginState [[10, 20]]) =
      ([10, 20] : List Nat).map (fun x => [some x]) ∧
    ∀ u : Nat, (stepState (reach [([10, 20] : List Nat)] u)).2 = false) :=
  ⟨⟨by decide, by decide⟩,
   C8_single_sequence_passthrough [10, 20] (by decide) 3 (by decide)⟩

/-- C9: every operation terminates: `gcd` computes the (total) Euclidean
gcd, the coprime search in `set_size` reaches a coprime padded length
within `tot` increments for every positive running total, and from every
mid-cycle reachable cursor a single `operator++` returns (its skip loop
needs only finitely many iterations — some fuel suffices). -/
theorem C9_termination {α : Type} (seqs : List (List α)) (hne : seqs ≠ [])
    (hall : ∀ l ∈ seqs, l ≠ []) :
    (∀ a b : Nat, gcd a b = Nat.gcd a b) ∧
    (∀ tot L : Nat, 0 < tot → Nat.gcd (coprimeFrom tot L tot) tot = 1) ∧
    (∀ t, t < (finalPads seqs).prod →
      ∃ fuel s, opInc fuel (reach seqs t) = some s) := by
  refine ⟨gcd_eq_gcd, ?_, fun t ht => opInc_terminates seqs hne hall t ht⟩
  intro tot L htot
  have hs := (padOf_pos_spec tot L htot).2.1
  have he : padOf tot L = coprimeFrom tot L tot := by
    unfold padOf
    rw [if_neg (by omega)]
  rwa [he] at hs

theorem C9_termination_witness :
    (([[0, 1], [0, 1, 2, 3]] : List (List Nat)) ≠ [] ∧
      (∀ l ∈ ([[0, 1], [0, 1, 2, 3]] : List (List Nat)), l ≠ [])) ∧
    ((∀ a b : Nat, gcd a b = Nat.gcd a b) ∧
    (∀ tot L : Nat, 0 < tot → Nat.gcd (coprimeFrom tot L tot) tot = 1) ∧
    (∀ t, t < (finalPads [[0, 1], [0, 1, 2, 3]]).prod →
      ∃ fuel s, opInc fuel (reach [[0, 1], [0, 1, 2, 3]] t) = some s)) :=
  ⟨⟨by decide, by decide⟩,
   C9_termination [[0, 1], [0, 1, 2, 3]] (by decide) (by decide)⟩

/-- C10: every whole-chain `do_increment` call bumps the terminal counter
by exactly one (each node forwards exactly one call to its rest iterator on
both the carry and no-carry paths), so `global_counter()` equals the number
of raw steps taken since `begin()`. -/
theorem C10_global_counter_counts_steps {α : Type} :
    (∀ (ns : List (MPNode α)) (tot g : Nat),
      (do_increment ns tot g).2.2.1 = g + 1) ∧
    ∀ (seqs : List (List α)) (t : Nat), (reach seqs t).gcounter = t :=
  ⟨fun ns tot g => do_increment_gcounter ns tot g,
   fun seqs t => reach_gcounter seqs t⟩

end MixedProduct
